import Mathlib

/-!
Shallow embedding of `scripts/extract_pdf_metadata.py`.

Python strings are modelled as `List Char`.  Python string and regex
primitives are taken at their ASCII behaviour: `\s` is the six ASCII
whitespace characters, `\d` is `0-9`, `\w` is `[A-Za-z0-9_]`, and
`str.upper` / `str.lower` / `str.title` act on `a-z` / `A-Z` only.
The regex substitutions and searches of the script are modelled by
direct left-to-right scanning functions that implement the concrete
backtracking behaviour of the patterns appearing in the script.
Font sizes (floats in the script) are modelled as rationals.
-/

namespace PdfMeta

/-- ASCII whitespace: the model of regex `\s` and of `str.strip()`. -/
def isSpaceCh (c : Char) : Bool :=
  c == ' ' || c == '\t' || c == '\n' || c == '\r' || c == '\x0b' || c == '\x0c'

/-- ASCII decimal digit `0-9`: the model of regex `\d` and of `str.isdigit`
(code points 48 to 57). -/
def isDigitCh (c : Char) : Bool :=
  48 ≤ c.toNat && c.toNat ≤ 57

/-- ASCII letter `a-z` / `A-Z` (code points 97 to 122 and 65 to 90). -/
def isAlphaCh (c : Char) : Bool :=
  (97 ≤ c.toNat && c.toNat ≤ 122) || (65 ≤ c.toNat && c.toNat ≤ 90)

/-- ASCII word character: the model of regex `\w`. -/
def isWordCh (c : Char) : Bool :=
  isAlphaCh c || isDigitCh c || c == '_'

/-- ASCII upper-casing of a single character (model of `str.upper`). -/
def toUpperCh (c : Char) : Char :=
  if 97 ≤ c.toNat && c.toNat ≤ 122 then Char.ofNat (c.toNat - 32) else c

/-- ASCII lower-casing of a single character (model of `str.lower`). -/
def toLowerCh (c : Char) : Char :=
  if 65 ≤ c.toNat && c.toNat ≤ 90 then Char.ofNat (c.toNat + 32) else c

/-- Python `str.strip()`: drop ASCII whitespace from both ends. -/
def pyStrip (l : List Char) : List Char :=
  ((l.dropWhile isSpaceCh).reverse.dropWhile isSpaceCh).reverse

/-! ## `clean_text`

`clean_text` is the sequence of four `re.sub` calls of the script:

* `re.sub(r'[∗\*†‡§¶]+', '', text)`
* `re.sub(r'(?<=\w)\s*\d{1,2}(?=\s)', ' ', text)`
* `re.sub(r'(\w)-\s+(\w)', r'\1\2', text)`
* `re.sub(r'\s+', ' ', text)`

followed by `text.strip()`.
-/

/-- Membership in the footnote-glyph class `[∗\*†‡§¶]` of the first substitution. -/
def isGlyphCh (c : Char) : Bool :=
  c == '∗' || c == '*' || c == '†' || c == '‡' || c == '§' || c == '¶'

/-- First substitution: every run of footnote glyphs is replaced by the empty
string, i.e. every glyph character is deleted. -/
def removeGlyphs (l : List Char) : List Char :=
  l.filter (fun c => !isGlyphCh c)

/-- One attempt of `\s*\d{1,2}(?=\s)` at the current position (the `(?<=\w)`
look-behind is checked by the caller).  Greedy backtracking makes the `\s*`
consume the whole whitespace run (a digit can never match a whitespace
character), then `\d{1,2}` prefers two digits over one, and the look-ahead
requires a whitespace character, which is not consumed.  On success, returns
the last consumed character (for the next look-behind) and the rest of the
input starting at the look-ahead position. -/
def footnoteMatch (l : List Char) : Option (Char × List Char) :=
  match l.dropWhile isSpaceCh with
  | d1 :: d2 :: x :: r =>
    if isDigitCh d1 && isDigitCh d2 && isSpaceCh x then some (d2, x :: r)
    else if isDigitCh d1 && isSpaceCh d2 then some (d1, d2 :: x :: r)
    else none
  | [d1, d2] => if isDigitCh d1 && isSpaceCh d2 then some (d1, [d2]) else none
  | _ => none

/-- Look-behind test: the character right before the scan position is a word
character (`(?<=\w)`); at the very start of the string there is none. -/
def prevIsWord : Option Char → Bool
  | some p => isWordCh p
  | none => false

/-- Left-to-right non-overlapping scan of the second substitution, replacing
each match of `(?<=\w)\s*\d{1,2}(?=\s)` by a single space.  `fuel` bounds the
recursion; every step consumes at least one character, so `fuel = length`
suffices and the `fuel = 0` branch is never taken in `dropFootnotes`. -/
def dropFootnotesGo : Nat → Option Char → List Char → List Char
  | _, _, [] => []
  | 0, _, l => l
  | fuel + 1, prev, c :: rest =>
    if prevIsWord prev then
      match footnoteMatch (c :: rest) with
      | some (last, rest2) => ' ' :: dropFootnotesGo fuel (some last) rest2
      | none => c :: dropFootnotesGo fuel (some c) rest
    else c :: dropFootnotesGo fuel (some c) rest

/-- Second substitution: `re.sub(r'(?<=\w)\s*\d{1,2}(?=\s)', ' ', text)`. -/
def dropFootnotes (l : List Char) : List Char :=
  dropFootnotesGo l.length none l

/-- One attempt of `(\w)-\s+(\w)` with the first group already read as `c`:
the rest must start with a hyphen followed by at least one whitespace
character and a word character (the greedy `\s+` must consume its whole run,
since a word character can never match a whitespace character).  On success,
returns the second word character and the rest after it. -/
def hyphenMatch (c : Char) (rest : List Char) : Option (Char × List Char) :=
  match rest with
  | '-' :: r2 =>
    match r2.dropWhile isSpaceCh with
    | w2 :: r4 =>
      if isWordCh c && !(r2.takeWhile isSpaceCh).isEmpty && isWordCh w2 then
        some (w2, r4)
      else none
    | [] => none
  | _ => none

/-- Left-to-right non-overlapping scan of the third substitution
`re.sub(r'(\w)-\s+(\w)', r'\1\2', text)`: a word character, a hyphen, at
least one whitespace character and a word character are replaced by the two
word characters; scanning resumes after the second word character.  `fuel`
as in `dropFootnotesGo`. -/
def fixHyphensGo : Nat → List Char → List Char
  | _, [] => []
  | 0, l => l
  | fuel + 1, c :: rest =>
    match hyphenMatch c rest with
    | some (w2, r4) => c :: w2 :: fixHyphensGo fuel r4
    | none => c :: fixHyphensGo fuel rest

/-- Third substitution: rejoin hyphenated line breaks. -/
def fixHyphens (l : List Char) : List Char :=
  fixHyphensGo l.length l

/-- Scan of the fourth substitution `re.sub(r'\s+', ' ', text)`: each maximal
whitespace run becomes a single space.  The flag records whether the scan is
inside a whitespace run. -/
def collapseGo : Bool → List Char → List Char
  | _, [] => []
  | inWs, c :: rest =>
    if isSpaceCh c then
      if inWs then collapseGo true rest else ' ' :: collapseGo true rest
    else c :: collapseGo false rest

/-- Fourth substitution: collapse whitespace runs to single spaces. -/
def collapseWs (l : List Char) : List Char :=
  collapseGo false l

/-- `clean_text` of the script: remove footnote glyphs, strip footnote
numbers, rejoin hyphenated line breaks, normalize whitespace, strip. -/
def clean_text (text : List Char) : List Char :=
  pyStrip (collapseWs (fixHyphens (dropFootnotes (removeGlyphs text))))

/-! ## `parse_filename` -/

/-- Python `Path(filename).stem` for a bare file name: the name without its
suffix, where the suffix is the part from the last dot on, and only when
that dot is neither the first character nor the last.  The bare component
`"."` is normalized away by `Path`, so its name and stem are empty. -/
def pyStem (name : List Char) : List Char :=
  if name = ['.'] then [] else
  let r := name.reverse
  let ext := r.takeWhile (fun c => c != '.')
  if ext.length < r.length then
    let pre := r.drop (ext.length + 1)
    if !ext.isEmpty && !pre.isEmpty then pre.reverse else name
  else name

/-- Python `s.split("__")`: split on non-overlapping leftmost occurrences of
a double underscore. -/
def splitDU : List Char → List (List Char)
  | [] => [[]]
  | [c] => [[c]]
  | c :: d :: rest =>
    if c = '_' ∧ d = '_' then [] :: splitDU rest
    else
      match splitDU (d :: rest) with
      | [] => [[c]]
      | p :: ps => (c :: p) :: ps

/-- Whether a string contains a double underscore. -/
def hasDU : List Char → Bool
  | [] => false
  | [_] => false
  | c :: d :: rest => (c = '_' && d = '_') || hasDU (d :: rest)

/-- Python `"__".join(parts)`. -/
def joinDU : List (List Char) → List Char
  | [] => []
  | [p] => p
  | p :: ps => p ++ '_' :: '_' :: joinDU ps

/-- Python `s.isdigit()` (ASCII model): nonempty and all decimal digits. -/
def pyIsdigit (l : List Char) : Bool :=
  !l.isEmpty && l.all isDigitCh

/-- Decimal value of a digit string. -/
def digitsToNat (l : List Char) : Nat :=
  l.foldl (fun n c => 10 * n + (c.toNat - '0'.toNat)) 0

/-- Python `int(s)` (ASCII model): defined exactly on nonempty digit
strings, `none` models the `ValueError` raised otherwise. -/
def pyInt (l : List Char) : Option Nat :=
  if pyIsdigit l then some (digitsToNat l) else none

/-- The `JOURNAL_ABBREVS` table of the script. -/
def JOURNAL_ABBREVS : List (String × String) :=
  [("APSR", "American Political Science Review"),
   ("AJPS", "American Journal of Political Science"),
   ("JOP", "Journal of Politics"),
   ("IO", "International Organization"),
   ("IS", "International Studies Quarterly"),
   ("ISQ", "International Studies Quarterly"),
   ("CPS", "Comparative Political Studies"),
   ("WP", "World Politics"),
   ("BJPS", "British Journal of Political Science"),
   ("PA", "Political Analysis"),
   ("PSQ", "Political Science Quarterly"),
   ("PRQ", "Political Research Quarterly"),
   ("PSRM", "Political Science Research and Methods"),
   ("EJPR", "European Journal of Political Research"),
   ("JCMS", "Journal of Common Market Studies"),
   ("JPP", "Journal of Public Policy"),
   ("GOV", "Governance"),
   ("LSQ", "Legislative Studies Quarterly"),
   ("POQ", "Public Opinion Quarterly"),
   ("RIO", "Review of International Organizations"),
   ("RIPE", "Review of International Political Economy"),
   ("REP", "Review of Economics and Politics")]

/-- Python `JOURNAL_ABBREVS.get(key)`. -/
def lookupAbbrev (key : List Char) : Option (List Char) :=
  (JOURNAL_ABBREVS.find? (fun kv => kv.1.toList == key)).map (fun kv => kv.2.toList)

/-- Python `s.split("-", 1)`: `none` in the second component when the string
contains no dash. -/
def splitDash1 (l : List Char) : List Char × Option (List Char) :=
  let pre := l.takeWhile (fun c => c != '-')
  if pre.length = l.length then (l, none)
  else (pre, some (l.drop (pre.length + 1)))

/-- `_parse_status_code` of the script: convert a status code to its display
string. -/
def parse_status_code (status_code : List Char) : List Char :=
  let code := status_code.map toUpperCh
  if code = "UR".toList then "Under review".toList
  else if code = "WP".toList then "Working paper".toList
  else if code.take 2 = "RR".toList then
    match (splitDash1 status_code).2 with
    | some rest =>
      let abb := rest.map toUpperCh
      let journal := (lookupAbbrev abb).getD abb
      "Revise & Resubmit, ".toList ++ journal
    | none => "Revise & Resubmit".toList
  else status_code

/-- Result record of `parse_filename`. -/
structure Parsed where
  clean_name : List Char
  status : List Char
  sort_order : Nat
deriving DecidableEq, Repr

/-- `parse_filename` of the script.  The only possibly raising operation is
`int(parts[0])`, modelled by `pyInt`; in the ASCII model it is guarded by
`parts[0].isdigit()`, so the result is always `some`.  The final `[]` branch
mirrors the dead `return` at the end of the Python function. -/
def parse_filename (filename : List Char) : Option Parsed :=
  let stem := pyStem filename
  let parts0 := splitDU stem
  let step : Option (Nat × List (List Char)) :=
    match parts0 with
    | p0 :: rest =>
      if 2 ≤ parts0.length && pyIsdigit p0 then
        (pyInt p0).map (fun n => (n, rest))
      else some (999, parts0)
    | [] => some (999, parts0)
  match step with
  | none => none
  | some (sortOrder, parts) =>
    match parts with
    | [name] => some ⟨name, "Working paper".toList, sortOrder⟩
    | _ :: _ :: _ =>
      some ⟨joinDU parts.dropLast, parse_status_code (pyStrip (parts.getLastD [])),
            sortOrder⟩
    | [] => some ⟨stem, "Working paper".toList, sortOrder⟩

/-! ## `extract_title_from_pdf`

The script inspects the words of the first page, each carrying a font size
(and a vertical position, which the script never reads).  Sizes are
modelled as rationals; the float literal `0.9` is modelled as `9/10`. -/

/-- A positioned word span of the first page, as produced by
`extract_words`: its text, its font size and its vertical position. -/
structure SpanWord where
  text : List Char
  size : ℚ
  top : ℚ
deriving DecidableEq, Repr

/-- Python `max(w.get("size", 0) for w in words)` (the script guards against
the empty list before calling it). -/
def maxSizeOf : List SpanWord → ℚ
  | [] => 0
  | w :: ws => ws.foldl (fun m x => max m x.size) w.size

/-- The set of distinct font sizes on the page (`set(...)`; the script sorts
it but only reads its cardinality). -/
def distinctSizes (ws : List SpanWord) : List ℚ :=
  (ws.map (fun w => w.size)).dedup

/-- The title threshold: within 10% of the maximal size when at least two
distinct sizes occur, otherwise the maximal size itself. -/
def titleThreshold (ws : List SpanWord) : ℚ :=
  if 2 ≤ (distinctSizes ws).length then maxSizeOf ws * (9 / 10) else maxSizeOf ws

/-- The words the script collects into the title: every word whose size
reaches the threshold, in page order. -/
def titleCandidates (ws : List SpanWord) : List (List Char) :=
  (ws.filter (fun w => titleThreshold ws ≤ w.size)).map (fun w => w.text)

/-- Python `" ".join(parts)`. -/
def joinSpace : List (List Char) → List Char
  | [] => []
  | [t] => t
  | t :: ts => t ++ ' ' :: joinSpace ts

/-- Full match of `^\s*\d+\s*$` (the artifact test `re.sub` applies to the
joined title: a title that is just a number is replaced by the empty
string). -/
def isOnlyNumber (l : List Char) : Bool :=
  let l1 := l.dropWhile isSpaceCh
  let ds := l1.takeWhile isDigitCh
  !ds.isEmpty && (l1.drop ds.length).all isSpaceCh

/-- `extract_title_from_pdf` of the script, as a function of the word spans
of the first page (the parts reading the PDF itself are I/O). -/
def extract_title_from_pdf (ws : List SpanWord) : List Char :=
  if ws.isEmpty then []
  else
    let tws := titleCandidates ws
    if !tws.isEmpty then
      let title := clean_text (joinSpace tws)
      let title := if isOnlyNumber title then [] else title
      if 5 < title.length then title else []
    else []

/-! ## `extract_abstract_from_text`

The three regex patterns of the script share the end-of-abstract
look-ahead.  They are modelled by scanning functions implementing the
left-to-right, leftmost-match, greedy/lazy backtracking behaviour of
`re.search` on exactly these patterns.  The whole pattern carries `(?i)`,
so the character classes `[A-Z]`/`[a-z]` inside `end_markers` are
case-insensitive as well, i.e. they match any ASCII letter. -/

/-- Trailing `\b` after a branch ending in a word character: the next
character is absent or not a word character. -/
def boundaryAfterWord : List Char → Bool
  | [] => true
  | c :: _ => !isWordCh c

/-- Case-insensitive literal match: returns the rest of the input after the
literal. -/
def matchCI : List Char → List Char → Option (List Char)
  | [], l => some l
  | _ :: _, [] => none
  | p :: ps, c :: cs => if toLowerCh c = toLowerCh p then matchCI ps cs else none

/-- Case-insensitive literal word: the literal followed by a `\b`. -/
def matchWordCI (w : String) (l : List Char) : Bool :=
  match matchCI w.toList l with
  | some r => boundaryAfterWord r
  | none => false

/-- Branches `JEL\s*[Cc]lass\b` and `JEL\s*[Cc]ode\b` (case-insensitive). -/
def markerJel (l : List Char) : Bool :=
  match matchCI "jel".toList l with
  | some r =>
    let r2 := r.dropWhile isSpaceCh
    matchWordCI "class" r2 || matchWordCI "code" r2
  | none => false

/-- Branch `Word\s*count\b` (case-insensitive). -/
def markerWordCount (l : List Char) : Bool :=
  match matchCI "word".toList l with
  | some r => matchWordCI "count" (r.dropWhile isSpaceCh)
  | none => false

/-- Two letters followed by a `\b`: the tail `[A-Z][a-z]\b` of the numbered
heading branch, case-insensitive because of the global `(?i)`. -/
def twoLetterThenBoundary : List Char → Bool
  | a :: b :: r => isAlphaCh a && isAlphaCh b && boundaryAfterWord r
  | _ => false

/-- Branch `1\s*\.?\s+[A-Z][a-z]\b`.  Backtracking makes the `\s*` consume
its whole whitespace run; when a dot follows, `\s+` must find at least one
whitespace character after the dot, otherwise the run itself must be
nonempty. -/
def markerNumbered : List Char → Bool
  | '1' :: r =>
    let wsA := r.takeWhile isSpaceCh
    match r.dropWhile isSpaceCh with
    | '.' :: r2 =>
      !(r2.takeWhile isSpaceCh).isEmpty && twoLetterThenBoundary (r2.dropWhile isSpaceCh)
    | r1 => !wsA.isEmpty && twoLetterThenBoundary r1
  | _ => false

/-- Tail `\.\s+[A-Z]\b` of the roman-numeral branch. -/
def romanTail : List Char → Bool
  | '.' :: r =>
    !(r.takeWhile isSpaceCh).isEmpty &&
      (match r.dropWhile isSpaceCh with
       | a :: r2 => isAlphaCh a && boundaryAfterWord r2
       | [] => false)
  | _ => false

/-- One roman alternative followed by the tail. -/
def romanAfter (s : String) (l : List Char) : Bool :=
  match matchCI s.toList l with
  | some r => romanTail r
  | none => false

/-- Branch `(?:I|II|III|IV|V)\.\s+[A-Z]\b` (case-insensitive); the
look-ahead only needs existence, so the alternation order is irrelevant. -/
def markerRoman (l : List Char) : Bool :=
  romanAfter "i" l || romanAfter "ii" l || romanAfter "iii" l ||
    romanAfter "iv" l || romanAfter "v" l

/-- The `end_markers` alternation at a position, assuming the leading `\b`
holds (every branch starts with a word character, so the caller checks that
the previous character is not a word character). -/
def endMarkersNW (l : List Char) : Bool :=
  matchWordCI "introduction" l ||
  matchWordCI "keywords" l || matchWordCI "keyword" l ||
  markerJel l ||
  markerNumbered l ||
  markerWordCount l ||
  matchWordCI "forthcoming" l ||
  matchWordCI "published" l ||
  matchWordCI "draft" l ||
  markerRoman l

/-- Word-character test on the character preceding a position (`none` at the
start of the string). -/
def prevNonWord : Option Char → Bool
  | none => true
  | some c => !isWordCh c

/-- The `end_markers` look-ahead at a position, leading `\b` included. -/
def endMarkersAt (prev : Option Char) (l : List Char) : Bool :=
  prevNonWord prev && endMarkersNW l

/-- Number of newline characters in a list. -/
def countNl (l : List Char) : Nat :=
  (l.filter (fun c => c == '\n')).length

/-- The look-ahead alternative `\n\s*\n\s*\n`: a newline whose following
whitespace run contains at least two more newlines. -/
def tripleBreak : List Char → Bool
  | '\n' :: rest => 2 ≤ countNl (rest.takeWhile isSpaceCh)
  | _ => false

/-- Lazy scan of `(.*?)(?=...)`: the group grows from the current position
until the first position where the look-ahead holds; `useTriple` selects
whether the `\n\s*\n\s*\n` alternative is part of the look-ahead (patterns
1 and 2) or not (pattern 3).  Returns the group and the rest at the match
position, or `none` when the look-ahead holds nowhere. -/
def findBoundary (useTriple : Bool) (prev : Option Char) :
    List Char → Option (List Char × List Char)
  | [] =>
    if endMarkersAt prev [] || (useTriple && tripleBreak []) then some ([], []) else none
  | c :: rest =>
    if endMarkersAt prev (c :: rest) || (useTriple && tripleBreak (c :: rest)) then
      some ([], c :: rest)
    else (findBoundary useTriple (some c) rest).map (fun gr => (c :: gr.1, gr.2))

/-- Group-start candidates of pattern 1.  After `Abstract`, `\s*\n` places
the group right after a newline of the following whitespace run, preferring
the rightmost newline (the `\s*` is greedy); `revRun` is the reversed
remainder of the run, `acc` the input from just after the run. -/
def p1CandGo : List Char → List Char → Option (List Char)
  | [], _ => none
  | c :: revRest, acc =>
    if c = '\n' then
      match findBoundary true (some '\n') acc with
      | some gr => some gr.1
      | none => p1CandGo revRest (c :: acc)
    else p1CandGo revRest (c :: acc)

/-- One attempt of pattern 1 at a position: the leading `(?:^|\n)\s*` is a
whitespace prefix (the alternation only gates which positions are tried),
then `Abstract` case-insensitively, then `\s*\n` and the lazy group. -/
def p1Try (l : List Char) : Option (List Char) :=
  match matchCI "abstract".toList (l.dropWhile isSpaceCh) with
  | none => none
  | some l2 => p1CandGo (l2.takeWhile isSpaceCh).reverse (l2.dropWhile isSpaceCh)

/-- `re.search` of pattern 1
`(?i)(?:^|\n)\s*Abstract\s*\n(.*?)(?=end_markers|\n\s*\n\s*\n)`:
attempts are anchored at the start of the string and at every newline;
the leftmost successful attempt wins. -/
def p1SearchGo : Bool → List Char → Option (List Char)
  | _, [] => none
  | atStart, c :: rest =>
    match (if atStart || c = '\n' then p1Try (c :: rest) else none) with
    | some g => some g
    | none => p1SearchGo false rest

/-- Pattern 2 punctuation class `[:\.\-—]`. -/
def isAbstractPunct (c : Char) : Bool :=
  c == ':' || c == '.' || c == '-' || c == '—'

/-- The `\s*(.*?)` step of pattern 2 after the punctuation character `p`:
the greedy `\s*` first consumes its whole whitespace run and the lazy group
scans forward from there; if the look-ahead holds nowhere from there on,
the `\s*` backtracks into the run, where only the `\n\s*\n\s*\n`
alternative can hold (every end-marker branch starts with a word
character), which happens exactly when the run contains at least three
newlines; the group is then empty. -/
def p2Run (p : Char) (l4 : List Char) : Option (List Char) :=
  match findBoundary true (some ((l4.takeWhile isSpaceCh).getLastD p))
      (l4.dropWhile isSpaceCh) with
  | some gr => some gr.1
  | none => if 3 ≤ countNl (l4.takeWhile isSpaceCh) then some [] else none

/-- The `\s*[:\.\-—]` step of pattern 2, applied to the rest after
`Abstract`: the whitespace run is consumed and the next character must be
one of the four punctuation marks. -/
def p2Punct : List Char → Option (List Char)
  | p :: l4 => if isAbstractPunct p then p2Run p l4 else none
  | [] => none

/-- Dispatch on the result of the case-insensitive `Abstract` literal. -/
def p2Abs : Option (List Char) → Option (List Char)
  | some l2 => p2Punct (l2.dropWhile isSpaceCh)
  | none => none

/-- One attempt of pattern 2
`(?i)\bAbstract\s*[:\.\-—]\s*(.*?)(?=end_markers|\n\s*\n\s*\n)` at a
position: the leading `\b`, the case-insensitive literal, the punctuation
step and the lazy group. -/
def p2Try (prev : Option Char) (l : List Char) : Option (List Char) :=
  if prevNonWord prev then p2Abs (matchCI "abstract".toList l)
  else none

/-- `re.search` of pattern 2: attempts at every position, leftmost wins. -/
def p2SearchGo (prev : Option Char) : List Char → Option (List Char)
  | [] => none
  | c :: rest =>
    match p2Try prev (c :: rest) with
    | some g => some g
    | none => p2SearchGo (some c) rest

/-- One attempt of pattern 3 `(?i)\bAbstract\b\s*(.*?)(?=end_markers)` at a
position.  The look-ahead has no triple-break alternative, so backtracking
the `\s*` into its whitespace run can never succeed (every end-marker branch
starts with a word character).  The character preceding the group start is
the last character of the run, or the final letter of `Abstract` when the
run is empty (only its word-character status matters, so `'t'` stands for
it). -/
def p3Run (l2 : List Char) : Option (List Char) :=
  match findBoundary false (some ((l2.takeWhile isSpaceCh).getLastD 't'))
      (l2.dropWhile isSpaceCh) with
  | some gr => some gr.1
  | none => none

/-- Dispatch on the result of the case-insensitive `Abstract` literal of
pattern 3, checking the trailing `\b` after it. -/
def p3Abs : Option (List Char) → Option (List Char)
  | some l2 => if boundaryAfterWord l2 then p3Run l2 else none
  | none => none

/-- One attempt of pattern 3 `(?i)\bAbstract\b\s*(.*?)(?=end_markers)` at a
position: the leading `\b`, the case-insensitive literal, the trailing `\b`
and the lazy group. -/
def p3Try (prev : Option Char) (l : List Char) : Option (List Char) :=
  if prevNonWord prev then p3Abs (matchCI "abstract".toList l)
  else none

/-- `re.search` of pattern 3: attempts at every position, leftmost wins. -/
def p3SearchGo (prev : Option Char) : List Char → Option (List Char)
  | [] => none
  | c :: rest =>
    match p3Try prev (c :: rest) with
    | some g => some g
    | none => p3SearchGo (some c) rest

/-- Python `s.strip('"')`: drop double quotes from both ends (all three
`strip` calls on the matched abstract strip the ASCII double quote). -/
def stripQuote (l : List Char) : List Char :=
  ((l.dropWhile (fun c => c == '"')).reverse.dropWhile (fun c => c == '"')).reverse

/-- Post-processing of a matched group: `.strip()`, `clean_text`, and the
three `strip('"')` calls. -/
def postCandidate (g : List Char) : List Char :=
  stripQuote (stripQuote (stripQuote (clean_text (pyStrip g))))

/-- The loop body of `extract_abstract_from_text` for one pattern: when the
pattern matched, post-process the group and accept it only when it is
longer than 80 characters ("Only accept if it's substantial"); otherwise
the loop moves on to the next pattern. -/
def tryAccept : Option (List Char) → Option (List Char)
  | some g0 =>
    if 80 < (postCandidate g0).length then some (postCandidate g0) else none
  | none => none

/-- `extract_abstract_from_text` of the script: try the three patterns in
order; a match whose cleaned group is longer than 80 characters is
returned; otherwise the next pattern is tried; no pattern left yields the
empty string. -/
def extract_abstract_from_text (text : List Char) : List Char :=
  match tryAccept (p1SearchGo true text) with
  | some a => a
  | none =>
    match tryAccept (p2SearchGo none text) with
    | some a => a
    | none =>
      match tryAccept (p3SearchGo none text) with
      | some a => a
      | none => []

/-- `extract_abstract_from_pdf` of the script, as a function of the page
texts (reading the PDF is I/O): concatenate the first three nonempty page
texts with blank-line separators, then extract from the text. -/
def extract_abstract_from_pdf (pages : List (List Char)) : List Char :=
  let text := (pages.take 3).foldl
    (fun acc p => if p.isEmpty then acc else acc ++ p ++ ['\n', '\n']) []
  if text.isEmpty then [] else extract_abstract_from_text text

/-- The end-of-abstract look-ahead at a position, ignoring the leading `\b`
(as if the previous character were a non-word character); it bounds
`endMarkersAt prev` for every `prev`, and also the triple-break
alternative. -/
def lookNW (l : List Char) : Bool :=
  endMarkersNW l || tripleBreak l

/-- Whether the end-of-abstract look-ahead holds at any position (suffix)
of the text. -/
def hasBoundary : List Char → Bool
  | [] => lookNW []
  | c :: rest => lookNW (c :: rest) || hasBoundary rest

/-- A text with an `Abstract:` marker followed by far more than 80
characters of content, but with no end-of-abstract boundary anywhere: no
section-heading word, no numbered or roman-numeral heading, and no triple
line-break. -/
def c8Text : List Char :=
  ("Abstract: lorem ipsum dolor sit amet consectetur adipiscing elit sed "
    ++ "eiusmod tempor incididunt ut labore et dolore magna aliqua").toList

/-- Rest of the text just after the first case-insensitive occurrence of the
keyword literal `abstract` shared by the three patterns; `none` when the
keyword does not occur in the text. -/
def kwRest : List Char → Option (List Char)
  | [] => none
  | c :: rest =>
    match matchCI "abstract".toList (c :: rest) with
    | some r => some r
    | none => kwRest rest

/-- The look-ahead tested by `findBoundary` at a split position: the
end-marker alternation with its leading `\b`, plus, when `u` is set, the
triple line-break alternative. -/
def lookAhead (u : Bool) (prev : Option Char) (r : List Char) : Bool :=
  endMarkersAt prev r || (u && tripleBreak r)

/-- The character just before the position reached after reading `g` from a
position whose preceding character is `prev`. -/
def prevAt (prev : Option Char) (g : List Char) : Option Char :=
  match g.getLast? with
  | some c => some c
  | none => prev

/-- A text whose abstract block is closed by an `Introduction` heading: the
captured slice ends exactly at that first boundary. -/
def c8SuccessText : List Char :=
  ("Abstract\nlorem ipsum dolor sit amet consectetur adipiscing elit sed "
    ++ "eiusmod tempor incididunt ut labore et dolore\nIntroduction\nThe paper").toList

/-- A text with a `Keywords` heading before the keyword and boundary-free
content after it: a boundary occurs in the text, but none after the
keyword. -/
def c8PreMarkerText : List Char :=
  ("Keywords lorem\n").toList ++ c8Text

/-! ## `extract_metadata` and the record merger -/

/-- Python `str.title` (ASCII model): a letter is upper-cased when the
previous character is not a letter, lower-cased otherwise. -/
def pyTitleGo : Bool → List Char → List Char
  | _, [] => []
  | prevAlpha, c :: rest =>
    if isAlphaCh c then
      (if prevAlpha then toLowerCh c else toUpperCh c) :: pyTitleGo true rest
    else c :: pyTitleGo false rest

/-- Python `s.title()`. -/
def pyTitle (l : List Char) : List Char :=
  pyTitleGo false l

/-- Python `s.replace(a, b)` for single characters. -/
def replaceCh (a b : Char) (l : List Char) : List Char :=
  l.map (fun c => if c = a then b else c)

/-- Python `s.rstrip('.,;: ')`. -/
def rstripArtifacts (l : List Char) : List Char :=
  (l.reverse.dropWhile
    (fun c => c == '.' || c == ',' || c == ';' || c == ':' || c == ' ')).reverse

/-- The metadata dictionary returned by `extract_metadata`. -/
structure Metadata where
  title : List Char
  abstract : List Char
  status : List Char
  sort_order : Nat
deriving DecidableEq, Repr

/-- `extract_metadata` of the script, as a function of the file name, the
word spans of page one and the page texts. -/
def extract_metadata (filename : List Char) (page1Words : List SpanWord)
    (pages : List (List Char)) : Option Metadata :=
  match parse_filename filename with
  | none => none
  | some parsed =>
    let fallback_title := pyTitle (replaceCh '_' ' ' (replaceCh '-' ' ' parsed.clean_name))
    let t0 := extract_title_from_pdf page1Words
    let title := if t0.isEmpty || t0.length < 5 then fallback_title else t0
    let title := rstripArtifacts (clean_text title)
    some ⟨title, extract_abstract_from_pdf pages, parsed.status, parsed.sort_order⟩

/-- A persisted publication record (`_data/publications.yml` entry).  The
optional `abstract` models presence or absence of the key. -/
structure Pub where
  title : List Char
  authors : List Char
  category : List Char
  github_pdf : List Char
  year : Nat
  status : List Char
  sort_order : Nat
  abstract : Option (List Char)
deriving DecidableEq, Repr

/-- The update applied by `main` to an existing record whose `github_pdf`
matches an observed PDF: `status` and `sort_order` are overwritten when the
freshly parsed values differ and left in place otherwise. -/
def refreshPub (parsed : Parsed) (pub : Pub) : Pub :=
  let pub1 := if pub.status ≠ parsed.status then { pub with status := parsed.status } else pub
  if pub1.sort_order ≠ parsed.sort_order then { pub1 with sort_order := parsed.sort_order }
  else pub1

/-- The reconciliation pass of `main` for one observed PDF at path
`relative`: every stored record with that `github_pdf` is refreshed, every
other record is untouched. -/
def reconcile (parsed : Parsed) (relative : List Char) (pubs : List Pub) : List Pub :=
  pubs.map (fun p => if p.github_pdf = relative then refreshPub parsed p else p)

/-- The fields of a record that the reconciliation pass never writes. -/
def frameFields (p : Pub) :
    List Char × Option (List Char) × List Char × List Char × List Char × Nat :=
  (p.title, p.abstract, p.authors, p.category, p.github_pdf, p.year)

/-- The entry `main` appends for a newly observed PDF: the `abstract` key is
set only when the extracted abstract is truthy, i.e. nonempty. -/
def buildEntry (category relative : List Char) (md : Metadata) : Pub :=
  { title := md.title
    authors := "Jihye Park".toList
    category := category
    github_pdf := relative
    year := 2025
    status := md.status
    sort_order := md.sort_order
    abstract := if md.abstract.isEmpty then none else some md.abstract }

/-! ## Theorems -/

/-- Evaluation of `splitDU` on a leading double underscore. -/
theorem splitDU_pos (rest : List Char) :
    splitDU ('_' :: '_' :: rest) = [] :: splitDU rest := by
  rw [splitDU]
  simp

theorem splitDU_two (c d : Char) (rest : List Char) (h : ¬(c = '_' ∧ d = '_')) :
    splitDU (c :: d :: rest)
      = match splitDU (d :: rest) with
        | [] => [[c]]
        | p :: ps => (c :: p) :: ps := by
  rw [splitDU]
  rw [if_neg h]

theorem splitDU_ne_nil : ∀ l : List Char, splitDU l ≠ [] := by
  intro l
  induction l with
  | nil => simp [splitDU]
  | cons c rest ih =>
    cases rest with
    | nil => simp [splitDU]
    | cons d rest2 =>
      by_cases h : c = '_' ∧ d = '_'
      · obtain ⟨h1, h2⟩ := h
        subst h1; subst h2
        rw [splitDU_pos]
        simp
      · rw [splitDU_two c d rest2 h]
        cases hm : splitDU (d :: rest2) <;> simp

theorem hasDU_cons₂ (c d : Char) (rest : List Char) (h : hasDU (c :: d :: rest) = false) :
    ¬(c = '_' ∧ d = '_') ∧ hasDU (d :: rest) = false := by
  unfold hasDU at h
  simp only [Bool.or_eq_false_iff, Bool.and_eq_false_iff] at h
  obtain ⟨h1, h2⟩ := h
  refine ⟨?_, h2⟩
  rintro ⟨rfl, rfl⟩
  simp at h1

theorem splitDU_noDU : ∀ l : List Char, hasDU l = false → splitDU l = [l] := by
  intro l
  induction l with
  | nil => intro _; rfl
  | cons c rest ih =>
    cases rest with
    | nil => intro _; rfl
    | cons d rest2 =>
      intro h
      obtain ⟨h1, h2⟩ := hasDU_cons₂ c d rest2 h
      rw [splitDU_two c d rest2 h1, ih h2]

theorem splitDU_sep : ∀ (a b : List Char), hasDU a = false → a.getLast? ≠ some '_' →
    splitDU (a ++ '_' :: '_' :: b) = a :: splitDU b := by
  intro a
  induction a with
  | nil =>
    intro b _ _
    rw [List.nil_append, splitDU_pos]
  | cons c a' ih =>
    intro b hDU hlast
    cases a' with
    | nil =>
      have hc : ¬(c = '_' ∧ ('_' : Char) = '_') := by
        rintro ⟨rfl, -⟩
        exact hlast rfl
      rw [List.cons_append, List.nil_append, splitDU_two c '_' ('_' :: b) hc,
        splitDU_pos]
    | cons d a'' =>
      obtain ⟨h1, h2⟩ := hasDU_cons₂ c d a'' hDU
      have hlast2 : (d :: a'').getLast? ≠ some '_' := by
        simpa [List.getLast?_cons_cons] using hlast
      have hih := ih b h2 hlast2
      calc splitDU ((c :: d :: a'') ++ '_' :: '_' :: b)
          = splitDU (c :: d :: (a'' ++ '_' :: '_' :: b)) := by simp
        _ = match splitDU (d :: (a'' ++ '_' :: '_' :: b)) with
            | [] => [[c]]
            | p :: ps => (c :: p) :: ps := splitDU_two _ _ _ h1
        _ = (c :: d :: a'') :: splitDU b := by
            rw [show d :: (a'' ++ '_' :: '_' :: b) = (d :: a'') ++ '_' :: '_' :: b from rfl,
              hih]


theorem pyStem_append (s ext : List Char) (hs : s ≠ []) (he : ext ≠ [])
    (hdot : '.' ∉ ext) : pyStem (s ++ '.' :: ext) = s := by
  have hne : ¬(s ++ '.' :: ext = ['.']) := by
    intro h
    apply hs
    have hlen := congrArg List.length h
    simp only [List.length_append, List.length_cons, List.length_nil] at hlen
    have : s.length = 0 := by omega
    exact List.length_eq_zero.1 this
  have hr : (s ++ '.' :: ext).reverse = ext.reverse ++ '.' :: s.reverse := by
    simp
  have htw : (ext.reverse ++ '.' :: s.reverse).takeWhile (fun c => c != '.')
      = ext.reverse := by
    rw [List.takeWhile_append_of_pos]
    · simp [List.takeWhile]
    · intro x hx
      simp only [bne_iff_ne, ne_eq, decide_eq_true_eq]
      intro hxe
      exact hdot (by simpa [hxe] using List.mem_reverse.1 hx)
  unfold pyStem
  rw [if_neg hne]
  dsimp only
  rw [hr, htw]
  have hlen : ext.reverse.length < (ext.reverse ++ '.' :: s.reverse).length := by
    simp
  rw [if_pos hlen]
  have hdrop : (ext.reverse ++ '.' :: s.reverse).drop (ext.reverse.length + 1)
      = s.reverse := by
    rw [show ext.reverse ++ '.' :: s.reverse = (ext.reverse ++ ['.']) ++ s.reverse by simp,
      show ext.reverse.length + 1 = (ext.reverse ++ ['.']).length by simp]
    exact List.drop_left _ _
  rw [hdrop]
  have hc : (!ext.reverse.isEmpty && !s.reverse.isEmpty) = true := by
    simp [List.isEmpty_iff, hs, he]
  rw [if_pos hc]
  simp

theorem pyIsdigit_facts (l : List Char) (h : pyIsdigit l = true) :
    hasDU l = false ∧ l.getLast? ≠ some '_' ∧ l ≠ [] := by
  unfold pyIsdigit at h
  simp only [Bool.and_eq_true, List.all_eq_true] at h
  obtain ⟨hne, hall⟩ := h
  have hne2 : l ≠ [] := by simpa [List.isEmpty_iff] using hne
  refine ⟨?_, ?_, hne2⟩
  · clear hne hne2
    induction l with
    | nil => rfl
    | cons c rest ih =>
      cases rest with
      | nil => rfl
      | cons d rest2 =>
        unfold hasDU
        have hc : isDigitCh c = true := hall c (by simp)
        have hcu : ¬(c = '_') := by
          intro hh
          rw [hh] at hc
          simp [isDigitCh] at hc
        rw [Bool.or_eq_false_iff]
        constructor
        · simp [hcu]
        · exact ih (fun x hx => hall x (by simp [hx]))
  · intro hlast
    have hmem : '_' ∈ l := List.mem_of_mem_getLast? hlast
    have := hall '_' hmem
    simp [isDigitCh] at this

theorem pyInt_isdigit (l : List Char) (h : pyIsdigit l = true) :
    pyInt l = some (digitsToNat l) := by
  unfold pyInt
  rw [if_pos h]


/-- C4: `parse_filename` is total — it returns a result on every input and
never raises (the guarded `int` conversion always succeeds) — and when the
stem contains no `__` delimiter the whole stem becomes the name, with
default status and sort order. -/
theorem C4_parse_filename_total :
    ∀ filename : List Char,
      (parse_filename filename).isSome = true
      ∧ (hasDU (pyStem filename) = false →
          parse_filename filename
            = some ⟨pyStem filename, "Working paper".toList, 999⟩) := by
  intro f
  constructor
  · unfold parse_filename
    dsimp only
    cases hparts : splitDU (pyStem f) with
    | nil => simp
    | cons p0 rest =>
      cases rest with
      | nil => simp
      | cons q rest2 =>
        by_cases hd : pyIsdigit p0 = true
        · simp only [hd, pyInt_isdigit p0 hd]
          cases rest2 <;> simp
        · simp only [hd]
          cases rest2 <;> simp
  · intro h
    unfold parse_filename
    dsimp only
    rw [splitDU_noDU (pyStem f) h]
    simp


/-- C2: a filename `NN__name__CODE.ext` with purely numeric `NN` parses to
the integer value of `NN` as `sort_order` and the status decoded from the
(stripped) `CODE`; a filename without the numeric prefix gets
`sort_order = 999`; a filename without any `__` delimiter gets status
"Working paper" and the stem as its name. -/
theorem C2_filename_convention :
    (∀ nn name code ext : List Char,
        pyIsdigit nn = true →
        hasDU name = false → name.getLast? ≠ some '_' →
        hasDU code = false →
        ext ≠ [] → '.' ∉ ext →
        parse_filename (nn ++ '_' :: '_' :: name ++ '_' :: '_' :: code ++ '.' :: ext)
          = some ⟨name, parse_status_code (pyStrip code), digitsToNat nn⟩)
    ∧ (∀ f : List Char,
        ¬(2 ≤ (splitDU (pyStem f)).length
            ∧ pyIsdigit ((splitDU (pyStem f)).headD []) = true) →
        ∃ r, parse_filename f = some r ∧ r.sort_order = 999)
    ∧ (∀ f : List Char, hasDU (pyStem f) = false →
        parse_filename f = some ⟨pyStem f, "Working paper".toList, 999⟩) := by
  refine ⟨?_, ?_, ?_⟩
  · intro nn name code ext hnn hnameDU hnameLast hcodeDU hext hdot
    obtain ⟨hnnDU, hnnLast, hnnNe⟩ := pyIsdigit_facts nn hnn
    have hstem : pyStem (nn ++ '_' :: '_' :: name ++ '_' :: '_' :: code ++ '.' :: ext)
        = nn ++ '_' :: '_' :: name ++ '_' :: '_' :: code := by
      have := pyStem_append (nn ++ '_' :: '_' :: name ++ '_' :: '_' :: code) ext
        (by simp) hext hdot
      simpa using this
    have hsplit : splitDU (nn ++ '_' :: '_' :: name ++ '_' :: '_' :: code)
        = [nn, name, code] := by
      rw [show nn ++ '_' :: '_' :: name ++ '_' :: '_' :: code
          = nn ++ '_' :: '_' :: (name ++ '_' :: '_' :: code) from by simp,
        splitDU_sep nn (name ++ '_' :: '_' :: code) hnnDU hnnLast,
        splitDU_sep name code hnameDU hnameLast,
        splitDU_noDU code hcodeDU]
    unfold parse_filename
    dsimp only
    rw [hstem, hsplit]
    simp only [hnn, pyInt_isdigit nn hnn]
    simp [joinDU]
  · intro f hcond
    unfold parse_filename
    dsimp only
    cases hparts : splitDU (pyStem f) with
    | nil => exact absurd hparts (splitDU_ne_nil _)
    | cons p0 rest =>
      rw [hparts] at hcond
      cases rest with
      | nil =>
        simp
      | cons q rest2 =>
        have hd : ¬(pyIsdigit p0 = true) := by
          intro hd
          exact hcond ⟨by simp, by simpa using hd⟩
        simp only [hd]
        cases rest2 <;> simp [hd]
  · intro f h
    unfold parse_filename
    dsimp only
    rw [splitDU_noDU (pyStem f) h]
    simp


/-- C2 witness: the theorem applied at `01__trade-wars__RR-APSR.pdf`. -/
theorem C2_filename_convention_witness :
    parse_filename ("01__trade-wars__RR-APSR.pdf").toList
      = some ⟨"trade-wars".toList,
          ("Revise & Resubmit, American Political Science Review").toList, 1⟩ := by
  have h := (C2_filename_convention).1 "01".toList "trade-wars".toList
    "RR-APSR".toList "pdf".toList (by decide) (by decide) (by decide) (by decide)
    (by decide) (by decide)
  rw [show ("01__trade-wars__RR-APSR.pdf").toList
      = ("01").toList ++ '_' :: '_' :: ("trade-wars").toList
          ++ '_' :: '_' :: ("RR-APSR").toList ++ '.' :: ("pdf").toList from rfl, h]
  decide

/-- C4 witness: the theorem applied at the delimiter-free `my-paper.pdf`. -/
theorem C4_parse_filename_total_witness :
    (parse_filename ("my-paper.pdf").toList).isSome = true
    ∧ parse_filename ("my-paper.pdf").toList
        = some ⟨("my-paper").toList, "Working paper".toList, 999⟩ :=
  ⟨(C4_parse_filename_total ("my-paper.pdf").toList).1,
   by
    have h := (C4_parse_filename_total ("my-paper.pdf").toList).2 (by decide)
    rw [h]
    decide⟩


theorem mem_removeGlyphs {c : Char} {l : List Char} (h : c ∈ removeGlyphs l) : c ∈ l :=
  (List.mem_filter.1 h).1

theorem removeGlyphs_glyphFree (l : List Char) :
    ∀ c ∈ removeGlyphs l, isGlyphCh c = false := by
  intro c hc
  have := (List.mem_filter.1 hc).2
  simpa using this

theorem removeGlyphs_eq_self (l : List Char) (h : ∀ c ∈ l, isGlyphCh c = false) :
    removeGlyphs l = l := by
  unfold removeGlyphs
  apply List.filter_eq_self.2
  intro a ha
  simp [h a ha]

theorem footnoteMatch_none (l : List Char) (h : ∀ c ∈ l, isDigitCh c = false) :
    footnoteMatch l = none := by
  unfold footnoteMatch
  cases hd : l.dropWhile isSpaceCh with
  | nil => rfl
  | cons d1 r1 =>
    have h1 : isDigitCh d1 = false := by
      apply h
      exact (List.dropWhile_suffix isSpaceCh).subset (by rw [hd]; exact List.mem_cons_self _ _)
    cases r1 with
    | nil => rfl
    | cons d2 r2 =>
      cases r2 with
      | nil => simp [h1]
      | cons x r3 => simp [h1]

theorem dropFootnotesGo_eq_self :
    ∀ (l : List Char) (fuel : Nat) (prev : Option Char),
      (∀ c ∈ l, isDigitCh c = false) → dropFootnotesGo fuel prev l = l := by
  intro l
  induction l with
  | nil => intro fuel prev _; cases fuel <;> rfl
  | cons c rest ih =>
    intro fuel prev h
    cases fuel with
    | zero => rfl
    | succ fuel =>
      unfold dropFootnotesGo
      rw [footnoteMatch_none (c :: rest) h]
      have hr := ih fuel (some c) (fun x hx => h x (List.mem_cons_of_mem _ hx))
      by_cases hp : prevIsWord prev = true <;> simp [hp, hr]

theorem dropFootnotes_eq_self (l : List Char) (h : ∀ c ∈ l, isDigitCh c = false) :
    dropFootnotes l = l :=
  dropFootnotesGo_eq_self l _ none h

theorem hyphenMatch_none (c : Char) (rest : List Char) (h : rest.head? ≠ some '-') :
    hyphenMatch c rest = none := by
  unfold hyphenMatch
  cases rest with
  | nil => rfl
  | cons d r2 =>
    have hd : ¬(d = '-') := by simpa using h
    split
    · next heq => rw [List.cons.injEq] at heq; exact absurd heq.1 hd
    · rfl


theorem fixHyphensGo_eq_self :
    ∀ (l : List Char) (fuel : Nat), '-' ∉ l → fixHyphensGo fuel l = l := by
  intro l
  induction l with
  | nil => intro fuel _; cases fuel <;> rfl
  | cons c rest ih =>
    intro fuel h
    cases fuel with
    | zero => rfl
    | succ fuel =>
      unfold fixHyphensGo
      have hh : rest.head? ≠ some '-' := by
        cases rest with
        | nil => simp
        | cons d r2 =>
          simp only [List.head?_cons, ne_eq, Option.some.injEq]
          intro hd
          exact h (by rw [hd]; exact List.mem_cons_of_mem _ (List.mem_cons_self _ _))
      rw [hyphenMatch_none c rest hh]
      have hr := ih fuel (fun hx => h (List.mem_cons_of_mem _ hx))
      simp [hr]

theorem fixHyphens_eq_self (l : List Char) (h : '-' ∉ l) : fixHyphens l = l :=
  fixHyphensGo_eq_self l _ h

theorem collapseGo_cons_space_true (d : Char) (rest : List Char)
    (hd : isSpaceCh d = true) :
    collapseGo true (d :: rest) = collapseGo true rest := by
  simp [collapseGo, hd]

theorem collapseGo_cons_space_false (d : Char) (rest : List Char)
    (hd : isSpaceCh d = true) :
    collapseGo false (d :: rest) = ' ' :: collapseGo true rest := by
  simp [collapseGo, hd]

theorem collapseGo_cons_nonspace (b : Bool) (d : Char) (rest : List Char)
    (hd : isSpaceCh d = false) :
    collapseGo b (d :: rest) = d :: collapseGo false rest := by
  cases b <;> simp [collapseGo, hd]

theorem mem_collapseGo :
    ∀ (l : List Char) (b : Bool) (c : Char), c ∈ collapseGo b l → c ∈ l ∨ c = ' ' := by
  intro l
  induction l with
  | nil => intro b c hc; cases b <;> simp [collapseGo] at hc
  | cons d rest ih =>
    intro b c hc
    by_cases hd : isSpaceCh d = true
    · cases b with
      | true =>
        rw [collapseGo_cons_space_true d rest hd] at hc
        rcases ih true c hc with h | h
        · exact Or.inl (List.mem_cons_of_mem _ h)
        · exact Or.inr h
      | false =>
        rw [collapseGo_cons_space_false d rest hd] at hc
        simp only [List.mem_cons] at hc
        rcases hc with rfl | hc
        · exact Or.inr rfl
        · rcases ih true c hc with h | h
          · exact Or.inl (List.mem_cons_of_mem _ h)
          · exact Or.inr h
    · rw [collapseGo_cons_nonspace b d rest (by simpa using hd)] at hc
      simp only [List.mem_cons] at hc
      rcases hc with rfl | hc
      · exact Or.inl (List.mem_cons_self _ _)
      · rcases ih false c hc with h | h
        · exact Or.inl (List.mem_cons_of_mem _ h)
        · exact Or.inr h

theorem collapseGo_space :
    ∀ (l : List Char) (b : Bool), ∀ c ∈ collapseGo b l, isSpaceCh c = true → c = ' ' := by
  intro l
  induction l with
  | nil => intro b c hc; cases b <;> simp [collapseGo] at hc
  | cons d rest ih =>
    intro b c hc hsp
    by_cases hd : isSpaceCh d = true
    · cases b with
      | true =>
        rw [collapseGo_cons_space_true d rest hd] at hc
        exact ih true c hc hsp
      | false =>
        rw [collapseGo_cons_space_false d rest hd] at hc
        simp only [List.mem_cons] at hc
        rcases hc with rfl | hc
        · rfl
        · exact ih true c hc hsp
    · rw [collapseGo_cons_nonspace b d rest (by simpa using hd)] at hc
      simp only [List.mem_cons] at hc
      rcases hc with rfl | hc
      · exact absurd hsp (by simpa using hd)
      · exact ih false c hc hsp


theorem collapseGo_chain :
    ∀ (l : List Char) (b : Bool),
      List.Chain' (fun a b => ¬(isSpaceCh a = true ∧ isSpaceCh b = true)) (collapseGo b l)
      ∧ (b = true → ∀ d, (collapseGo b l).head? = some d → isSpaceCh d = false) := by
  intro l
  induction l with
  | nil =>
    intro b
    cases b <;> refine ⟨by simp [collapseGo], ?_⟩ <;> intro _ d hd <;>
      simp [collapseGo] at hd
  | cons c rest ih =>
    intro b
    by_cases hc : isSpaceCh c = true
    · cases b with
      | true =>
        rw [collapseGo_cons_space_true c rest hc]
        exact ⟨(ih true).1, fun _ d hd => (ih true).2 rfl d hd⟩
      | false =>
        rw [collapseGo_cons_space_false c rest hc]
        refine ⟨?_, fun hfalse => by cases hfalse⟩
        rw [List.chain'_cons']
        refine ⟨?_, (ih true).1⟩
        intro y hy
        intro ⟨_, hy2⟩
        have := (ih true).2 rfl y (Option.mem_def.1 hy)
        exact absurd hy2 (by simp [this])
    · have hcf : isSpaceCh c = false := by simpa using hc
      rw [collapseGo_cons_nonspace b c rest hcf]
      constructor
      · rw [List.chain'_cons']
        refine ⟨?_, (ih false).1⟩
        intro y _
        intro ⟨hc1, _⟩
        exact absurd hc1 (by simp [hcf])
      · intro _ d hd
        simp only [List.head?_cons, Option.some.injEq] at hd
        rw [← hd]
        exact hcf

theorem collapseGo_eq_self :
    ∀ l : List Char,
      (∀ c ∈ l, isSpaceCh c = true → c = ' ') →
      List.Chain' (fun a b => ¬(isSpaceCh a = true ∧ isSpaceCh b = true)) l →
      collapseGo false l = l
      ∧ ((∀ d, l.head? = some d → isSpaceCh d = false) → collapseGo true l = l) := by
  intro l
  induction l with
  | nil => intro _ _; exact ⟨rfl, fun _ => rfl⟩
  | cons c rest ih =>
    intro hsp hch
    rw [List.chain'_cons'] at hch
    obtain ⟨hpair, hch2⟩ := hch
    have ihr := ih (fun x hx => hsp x (List.mem_cons_of_mem _ hx)) hch2
    by_cases hc : isSpaceCh c = true
    · have hcsp : c = ' ' := hsp c (List.mem_cons_self _ _) hc
      have hhead : ∀ d, rest.head? = some d → isSpaceCh d = false := by
        intro d hd
        have := hpair d hd
        by_contra hdd
        exact this ⟨hc, by simpa using hdd⟩
      constructor
      · rw [collapseGo_cons_space_false c rest hc, ihr.2 hhead, hcsp]
      · intro hhd
        have := hhd c (by simp)
        exact absurd hc (by simp [this])
    · have hcf : isSpaceCh c = false := by simpa using hc
      have he := ihr.1
      constructor
      · rw [collapseGo_cons_nonspace false c rest hcf, he]
      · intro _
        rw [collapseGo_cons_nonspace true c rest hcf, he]


theorem pyStrip_eq_rdrop (l : List Char) :
    pyStrip l = List.rdropWhile isSpaceCh (l.dropWhile isSpaceCh) := rfl

theorem mem_pyStrip {c : Char} {l : List Char} (h : c ∈ pyStrip l) : c ∈ l := by
  rw [pyStrip_eq_rdrop] at h
  exact (List.dropWhile_suffix _).subset (( List.rdropWhile_prefix _ _).subset h)

theorem head?_append_left (x y : List Char) (h : x ≠ []) :
    (x ++ y).head? = x.head? := by
  cases x with
  | nil => exact absurd rfl h
  | cons a xs => rfl

theorem dropWhile_head?_not (p : Char → Bool) :
    ∀ (l : List Char) (d : Char), (l.dropWhile p).head? = some d → p d = false := by
  intro l
  induction l with
  | nil => intro d hd; simp at hd
  | cons a rest ih =>
    intro d hd
    by_cases hp : p a = true
    · rw [List.dropWhile_cons_of_pos hp] at hd
      exact ih d hd
    · rw [List.dropWhile_cons_of_neg hp] at hd
      simp only [List.head?_cons, Option.some.injEq] at hd
      rw [← hd]
      simpa using hp

theorem dropWhile_eq_self_of_head? (p : Char → Bool) (x : List Char)
    (h : ∀ d, x.head? = some d → p d = false) : x.dropWhile p = x := by
  cases x with
  | nil => rfl
  | cons a xs => rw [List.dropWhile_cons_of_neg (by simp [h a rfl])]

theorem pyStrip_head_not (l : List Char) (d : Char)
    (h : (pyStrip l).head? = some d) : isSpaceCh d = false := by
  rw [pyStrip_eq_rdrop] at h
  obtain ⟨t, ht⟩ := List.rdropWhile_prefix isSpaceCh (l.dropWhile isSpaceCh)
  have hne : List.rdropWhile isSpaceCh (l.dropWhile isSpaceCh) ≠ [] := by
    intro he
    rw [he] at h
    cases h
  have hh : (l.dropWhile isSpaceCh).head? = some d := by
    rw [← ht, head?_append_left _ _ hne, h]
  exact dropWhile_head?_not isSpaceCh l d hh

theorem pyStrip_last_not (l : List Char) (d : Char)
    (h : (pyStrip l).getLast? = some d) : isSpaceCh d = false := by
  rw [pyStrip_eq_rdrop] at h
  have hne : List.rdropWhile isSpaceCh (l.dropWhile isSpaceCh) ≠ [] := by
    intro he
    rw [he] at h
    cases h
  have hlast := List.rdropWhile_last_not isSpaceCh (l.dropWhile isSpaceCh) hne
  rw [List.getLast?_eq_getLast _ hne] at h
  simp only [Option.some.injEq] at h
  rw [h] at hlast
  simpa using hlast

theorem pyStrip_idem (l : List Char) : pyStrip (pyStrip l) = pyStrip l := by
  conv_lhs => rw [pyStrip_eq_rdrop (pyStrip l)]
  rw [dropWhile_eq_self_of_head? _ _ (fun d hd => pyStrip_head_not l d hd)]
  conv_lhs => rw [pyStrip_eq_rdrop l]
  rw [List.rdropWhile_idempotent]
  rw [pyStrip_eq_rdrop l]

theorem pyStrip_chain (l : List Char)
    (h : List.Chain' (fun a b => ¬(isSpaceCh a = true ∧ isSpaceCh b = true)) l) :
    List.Chain' (fun a b => ¬(isSpaceCh a = true ∧ isSpaceCh b = true)) (pyStrip l) := by
  rw [pyStrip_eq_rdrop]
  exact List.Chain'.prefix (h.suffix (List.dropWhile_suffix _)) ( List.rdropWhile_prefix _ _)


theorem footnoteMatch_sub (l : List Char) (d : Char) (rest2 : List Char)
    (h : footnoteMatch l = some (d, rest2)) : ∀ x ∈ rest2, x ∈ l := by
  have hsub : ∀ x ∈ l.dropWhile isSpaceCh, x ∈ l :=
    fun x hx => (List.dropWhile_suffix isSpaceCh).subset hx
  unfold footnoteMatch at h
  cases hd : l.dropWhile isSpaceCh with
  | nil => rw [hd] at h; cases h
  | cons d1 r1 =>
    rw [hd] at h
    cases r1 with
    | nil => cases h
    | cons d2 r2 =>
      cases r2 with
      | nil =>
        dsimp only [] at h
        split_ifs at h
        simp only [Option.some.injEq, Prod.mk.injEq] at h
        obtain ⟨-, hr⟩ := h
        subst hr
        intro x hx
        exact hsub x (by rw [hd]; exact List.mem_cons_of_mem _ hx)
      | cons y r3 =>
        dsimp only [] at h
        split_ifs at h with h1 h2
        · simp only [Option.some.injEq, Prod.mk.injEq] at h
          obtain ⟨-, hr⟩ := h
          subst hr
          intro x hx
          exact hsub x (by
            rw [hd]
            exact List.mem_cons_of_mem _ (List.mem_cons_of_mem _ hx))
        · simp only [Option.some.injEq, Prod.mk.injEq] at h
          obtain ⟨-, hr⟩ := h
          subst hr
          intro x hx
          exact hsub x (by rw [hd]; exact List.mem_cons_of_mem _ hx)

theorem mem_dropFootnotesGo :
    ∀ (fuel : Nat) (prev : Option Char) (l : List Char) (c : Char),
      c ∈ dropFootnotesGo fuel prev l → c ∈ l ∨ c = ' ' := by
  intro fuel
  induction fuel with
  | zero =>
    intro prev l c hc
    cases l with
    | nil => simp [dropFootnotesGo] at hc
    | cons a r => exact Or.inl hc
  | succ fuel ih =>
    intro prev l c hc
    cases l with
    | nil => simp [dropFootnotesGo] at hc
    | cons a rest =>
      unfold dropFootnotesGo at hc
      by_cases hp : prevIsWord prev = true
      · rw [if_pos hp] at hc
        cases hm : footnoteMatch (a :: rest) with
        | none =>
          rw [hm] at hc
          simp only [List.mem_cons] at hc
          rcases hc with rfl | hc
          · exact Or.inl (List.mem_cons_self _ _)
          · rcases ih (some a) rest c hc with h | h
            · exact Or.inl (List.mem_cons_of_mem _ h)
            · exact Or.inr h
        | some pr =>
          obtain ⟨last, rest2⟩ := pr
          rw [hm] at hc
          simp only [List.mem_cons] at hc
          rcases hc with rfl | hc
          · exact Or.inr rfl
          · rcases ih (some last) rest2 c hc with h | h
            · exact Or.inl (footnoteMatch_sub _ _ _ hm c h)
            · exact Or.inr h
      · rw [if_neg hp] at hc
        simp only [List.mem_cons] at hc
        rcases hc with rfl | hc
        · exact Or.inl (List.mem_cons_self _ _)
        · rcases ih (some a) rest c hc with h | h
          · exact Or.inl (List.mem_cons_of_mem _ h)
          · exact Or.inr h

theorem mem_dropFootnotes {c : Char} {l : List Char} (h : c ∈ dropFootnotes l) :
    c ∈ l ∨ c = ' ' :=
  mem_dropFootnotesGo _ none l c h

theorem hyphenMatch_sub (c : Char) (rest : List Char) (w2 : Char) (r4 : List Char)
    (h : hyphenMatch c rest = some (w2, r4)) :
    w2 ∈ rest ∧ ∀ x ∈ r4, x ∈ rest := by
  unfold hyphenMatch at h
  cases rest with
  | nil => cases h
  | cons e r2 =>
    split at h
    · next heq =>
      rw [List.cons.injEq] at heq
      obtain ⟨he, hr⟩ := heq
      subst he
      subst hr
      cases hdw : (r2.dropWhile isSpaceCh) with
      | nil => rw [hdw] at h; cases h
      | cons w r =>
        rw [hdw] at h
        dsimp only [] at h
        split_ifs at h
        simp only [Option.some.injEq, Prod.mk.injEq] at h
        obtain ⟨hw, hr⟩ := h
        have hsub : ∀ x ∈ w :: r, x ∈ r2 := by
          intro x hx
          apply (List.dropWhile_suffix isSpaceCh).subset
          rw [hdw]
          exact hx
        constructor
        · rw [← hw]
          exact List.mem_cons_of_mem _ (hsub w (List.mem_cons_self _ _))
        · intro x hx
          rw [← hr] at hx
          exact List.mem_cons_of_mem _ (hsub x (List.mem_cons_of_mem _ hx))
    · cases h

theorem mem_fixHyphensGo :
    ∀ (fuel : Nat) (l : List Char) (c : Char), c ∈ fixHyphensGo fuel l → c ∈ l := by
  intro fuel
  induction fuel with
  | zero =>
    intro l c hc
    cases l with
    | nil => simp [fixHyphensGo] at hc
    | cons a r => exact hc
  | succ fuel ih =>
    intro l c hc
    cases l with
    | nil => simp [fixHyphensGo] at hc
    | cons a rest =>
      unfold fixHyphensGo at hc
      cases hm : hyphenMatch a rest with
      | none =>
        rw [hm] at hc
        simp only [List.mem_cons] at hc
        rcases hc with rfl | hc
        · exact List.mem_cons_self _ _
        · exact List.mem_cons_of_mem _ (ih rest c hc)
      | some pr =>
        obtain ⟨w2, r4⟩ := pr
        rw [hm] at hc
        obtain ⟨hw2, hr4⟩ := hyphenMatch_sub a rest w2 r4 hm
        simp only [List.mem_cons] at hc
        rcases hc with rfl | rfl | hc
        · exact List.mem_cons_self _ _
        · exact List.mem_cons_of_mem _ hw2
        · exact List.mem_cons_of_mem _ (hr4 c (ih r4 c hc))

theorem mem_fixHyphens {c : Char} {l : List Char} (h : c ∈ fixHyphens l) : c ∈ l :=
  mem_fixHyphensGo _ l c h

theorem clean_text_fix (t : List Char)
    (hg : ∀ c ∈ t, isGlyphCh c = false)
    (hd : ∀ c ∈ t, isDigitCh c = false)
    (hh : '-' ∉ t)
    (hsp : ∀ c ∈ t, isSpaceCh c = true → c = ' ')
    (hch : List.Chain' (fun a b => ¬(isSpaceCh a = true ∧ isSpaceCh b = true)) t)
    (hst : pyStrip t = t) :
    clean_text t = t := by
  unfold clean_text
  rw [removeGlyphs_eq_self t hg, dropFootnotes_eq_self t hd, fixHyphens_eq_self t hh]
  rw [show collapseWs t = t from (collapseGo_eq_self t hsp hch).1, hst]

theorem clean_text_shape (s : List Char) :
    (∀ c ∈ clean_text s, c ∈ removeGlyphs s ∨ c = ' ')
    ∧ (∀ c ∈ clean_text s, isSpaceCh c = true → c = ' ')
    ∧ List.Chain' (fun a b => ¬(isSpaceCh a = true ∧ isSpaceCh b = true)) (clean_text s)
    ∧ pyStrip (clean_text s) = clean_text s := by
  have hmid : ∀ c ∈ clean_text s,
      c ∈ collapseWs (fixHyphens (dropFootnotes (removeGlyphs s))) := by
    intro c hc
    exact mem_pyStrip hc
  refine ⟨?_, ?_, ?_, ?_⟩
  · intro c hc
    rcases mem_collapseGo _ _ _ (hmid c hc) with h | h
    · rcases mem_dropFootnotes (mem_fixHyphens h) with h2 | h2
      · exact Or.inl h2
      · exact Or.inr h2
    · exact Or.inr h
  · intro c hc hsp
    exact collapseGo_space _ _ c (hmid c hc) hsp
  · exact pyStrip_chain _ (collapseGo_chain _ _).1
  · exact pyStrip_idem _


/-- C5 counterexample: `clean_text` is not idempotent.  On `"a- b- c"` one
application yields `"ab- c"` (the scan resumes after a replacement, so the
second hyphen is not rejoined), and a second application yields `"abc"`. -/
theorem C5_clean_text_not_idempotent :
    clean_text (clean_text ("a- b- c").toList) ≠ clean_text ("a- b- c").toList
    ∧ clean_text ("a- b- c").toList = ("ab- c").toList
    ∧ clean_text (clean_text ("a- b- c").toList) = ("abc").toList := by
  refine ⟨by decide, by decide, by decide⟩

/-- C5 amended: `clean_text` is idempotent on every input containing no
hyphen and no decimal digit (re-running the cleaner can rejoin further
hyphenated fragments and strip further footnote numbers, so the unrestricted
claim fails). -/
theorem C5_clean_text_idempotent_amended (s : List Char) (h1 : '-' ∉ s)
    (h2 : ∀ c ∈ s, isDigitCh c = false) :
    clean_text (clean_text s) = clean_text s := by
  obtain ⟨hmem, hsp, hch, hst⟩ := clean_text_shape s
  apply clean_text_fix
  · intro c hc
    rcases hmem c hc with h | h
    · exact removeGlyphs_glyphFree s c h
    · rw [h]; decide
  · intro c hc
    rcases hmem c hc with h | h
    · exact h2 c (mem_removeGlyphs h)
    · rw [h]; decide
  · intro hc
    rcases hmem '-' hc with h | h
    · exact h1 (mem_removeGlyphs h)
    · cases h
  · exact hsp
  · exact hch
  · exact hst


theorem alpha_not_glyph (c : Char) (h : isAlphaCh c = true) : isGlyphCh c = false := by
  by_contra hg
  simp only [Bool.not_eq_false, isGlyphCh, Bool.or_eq_true, beq_iff_eq] at hg
  rcases hg with ((((rfl | rfl) | rfl) | rfl) | rfl) | rfl <;> exact absurd h (by decide)

theorem alpha_not_digit (c : Char) (h : isAlphaCh c = true) : isDigitCh c = false := by
  simp only [isAlphaCh, Bool.or_eq_true, Bool.and_eq_true, decide_eq_true_eq] at h
  have : ¬(48 ≤ c.toNat ∧ c.toNat ≤ 57) := by
    rcases h with ⟨h1, h2⟩ | ⟨h1, h2⟩ <;> omega
  simp only [isDigitCh, ← Bool.not_eq_true, Bool.and_eq_true, decide_eq_true_eq]
  exact fun hc => this hc

theorem alpha_not_space (c : Char) (h : isAlphaCh c = true) : isSpaceCh c = false := by
  by_contra hs
  simp only [Bool.not_eq_false, isSpaceCh, Bool.or_eq_true, beq_iff_eq] at hs
  rcases hs with ((((rfl | rfl) | rfl) | rfl) | rfl) | rfl <;> exact absurd h (by decide)

theorem space_not_glyph (c : Char) (h : isSpaceCh c = true) : isGlyphCh c = false := by
  simp only [isSpaceCh, Bool.or_eq_true, beq_iff_eq] at h
  rcases h with ((((rfl | rfl) | rfl) | rfl) | rfl) | rfl <;> decide

theorem space_not_digit (c : Char) (h : isSpaceCh c = true) : isDigitCh c = false := by
  simp only [isSpaceCh, Bool.or_eq_true, beq_iff_eq] at h
  rcases h with ((((rfl | rfl) | rfl) | rfl) | rfl) | rfl <;> decide

theorem space_not_hyphen (c : Char) (h : isSpaceCh c = true) : c ≠ '-' := by
  simp only [isSpaceCh, Bool.or_eq_true, beq_iff_eq] at h
  rcases h with ((((rfl | rfl) | rfl) | rfl) | rfl) | rfl <;> decide

theorem alpha_word (c : Char) (h : isAlphaCh c = true) : isWordCh c = true := by
  simp [isWordCh, h]

theorem alpha_not_hyphen (c : Char) (h : isAlphaCh c = true) : c ≠ '-' := by
  rintro rfl
  exact absurd h (by decide)


theorem fixHyphensGo_nil (fuel : Nat) : fixHyphensGo fuel [] = [] := by
  cases fuel <;> rfl

theorem hyphenMatch_rejoin (c b : Char) (ws : List Char)
    (hc : isWordCh c = true) (hws : ws ≠ []) (hsp : ∀ x ∈ ws, isSpaceCh x = true)
    (hb : isWordCh b = true) :
    hyphenMatch c ('-' :: (ws ++ [b])) = some (b, []) := by
  unfold hyphenMatch
  have hdw : (ws ++ [b]).dropWhile isSpaceCh = [b] := by
    rw [List.dropWhile_append_of_pos hsp]
    have : isSpaceCh b = false := by
      by_contra hbs
      simp only [Bool.not_eq_false] at hbs
      simp only [isWordCh, Bool.or_eq_true, beq_iff_eq] at hb
      rcases hb with (hb | hb) | hb
      · exact absurd (alpha_not_space b hb) (by simp [hbs])
      · exact absurd (space_not_digit b hbs) (by simp [hb])
      · subst hb; exact absurd hbs (by decide)
    rw [List.dropWhile_cons_of_neg (by simp [this])]
  have htw : (ws ++ [b]).takeWhile isSpaceCh = ws ++ ([b].takeWhile isSpaceCh) :=
    List.takeWhile_append_of_pos hsp
  change (match (ws ++ [b]).dropWhile isSpaceCh with
    | w2 :: r4 =>
      if (isWordCh c && !((ws ++ [b]).takeWhile isSpaceCh).isEmpty && isWordCh w2) = true
      then some (w2, r4) else none
    | [] => none) = some (b, [])
  rw [hdw]
  have hcond : (isWordCh c && !((ws ++ [b]).takeWhile isSpaceCh).isEmpty
      && isWordCh b) = true := by
    rw [htw]
    simp [hc, hb, hws]
  change (if (isWordCh c && !((ws ++ [b]).takeWhile isSpaceCh).isEmpty && isWordCh b) = true
      then some (b, ([] : List Char)) else none) = some (b, [])
  rw [if_pos hcond]

theorem fixHyphensGo_rejoin :
    ∀ (frag : List Char) (fuel : Nat) (ws : List Char) (b : Char),
      frag ≠ [] → (∀ c ∈ frag, isAlphaCh c = true) →
      ws ≠ [] → (∀ c ∈ ws, isSpaceCh c = true) → isAlphaCh b = true →
      (frag ++ '-' :: ws ++ [b]).length ≤ fuel →
      fixHyphensGo fuel (frag ++ '-' :: ws ++ [b]) = frag ++ [b] := by
  intro frag
  induction frag with
  | nil => intro fuel ws b hne _ _ _ _ _; exact absurd rfl hne
  | cons c frag2 ih =>
    intro fuel ws b _ hall hws hsp hb hfuel
    cases fuel with
    | zero =>
      exfalso
      simp only [List.length_cons, List.length_append] at hfuel
      omega
    | succ fuel =>
      have hc : isAlphaCh c = true := hall c (List.mem_cons_self _ _)
      cases frag2 with
      | nil =>
        rw [show ([c] ++ '-' :: ws ++ [b]) = c :: ('-' :: (ws ++ [b])) from by simp]
        unfold fixHyphensGo
        rw [hyphenMatch_rejoin c b ws (alpha_word c hc) hws hsp
          (alpha_word b hb)]
        simp [fixHyphensGo_nil]
      | cons d frag3 =>
        have hd : isAlphaCh d = true :=
          hall d (List.mem_cons_of_mem _ (List.mem_cons_self _ _))
        rw [show ((c :: d :: frag3) ++ '-' :: ws ++ [b])
            = c :: ((d :: frag3) ++ '-' :: ws ++ [b]) from by simp]
        unfold fixHyphensGo
        rw [hyphenMatch_none c ((d :: frag3) ++ '-' :: ws ++ [b]) (by
          simp only [List.cons_append, List.head?_cons, ne_eq, Option.some.injEq]
          exact alpha_not_hyphen d hd)]
        rw [ih fuel ws b (by simp) (fun x hx => hall x (List.mem_cons_of_mem _ hx))
          hws hsp hb (by
            simp only [List.length_cons, List.length_append] at hfuel ⊢
            omega)]
        simp

theorem collapseGo_no_space (l : List Char) (h : ∀ c ∈ l, isSpaceCh c = false) :
    collapseWs l = l := by
  unfold collapseWs
  induction l with
  | nil => rfl
  | cons c rest ih =>
    rw [collapseGo_cons_nonspace false c rest (h c (List.mem_cons_self _ _))]
    rw [ih (fun x hx => h x (List.mem_cons_of_mem _ hx))]

theorem pyStrip_no_space (l : List Char) (h : ∀ c ∈ l, isSpaceCh c = false) :
    pyStrip l = l := by
  rw [pyStrip_eq_rdrop]
  rw [dropWhile_eq_self_of_head? _ _ (by
    intro d hd
    cases l with
    | nil => cases hd
    | cons a r =>
      simp only [List.head?_cons, Option.some.injEq] at hd
      rw [← hd]
      exact h a (List.mem_cons_self _ _))]
  rw [List.rdropWhile_eq_self_iff]
  intro hl
  have := h (l.getLast hl) (List.getLast_mem hl)
  simp [this]


/-- C6 amended: the cleaner rejoins a hyphen-broken word whenever a word
character precedes the hyphen and whitespace followed by a word character
follows it, regardless of the length of the pre-hyphen fragment: for any
nonempty all-letter fragment, any nonempty whitespace run and any letter,
the hyphen and the whitespace are removed. -/
theorem C6_hyphen_rejoin_any_fragment (frag ws : List Char) (b : Char)
    (hfrag : frag ≠ []) (hall : ∀ c ∈ frag, isAlphaCh c = true)
    (hws : ws ≠ []) (hsp : ∀ c ∈ ws, isSpaceCh c = true)
    (hb : isAlphaCh b = true) :
    clean_text (frag ++ '-' :: ws ++ [b]) = frag ++ [b] := by
  have hmem : ∀ c ∈ frag ++ '-' :: ws ++ [b],
      isAlphaCh c = true ∨ c = '-' ∨ isSpaceCh c = true := by
    intro c hc
    simp only [List.mem_append, List.mem_cons, List.mem_singleton] at hc
    rcases hc with (hc | hc | hc) | hc | hc
    · exact Or.inl (hall c hc)
    · exact Or.inr (Or.inl hc)
    · exact Or.inr (Or.inr (hsp c hc))
    · subst hc; exact Or.inl hb
    · simp at hc
  unfold clean_text
  rw [removeGlyphs_eq_self _ (by
    intro c hc
    rcases hmem c hc with h | h | h
    · exact alpha_not_glyph c h
    · subst h; decide
    · exact space_not_glyph c h)]
  rw [dropFootnotes_eq_self _ (by
    intro c hc
    rcases hmem c hc with h | h | h
    · exact alpha_not_digit c h
    · subst h; decide
    · exact space_not_digit c h)]
  have hfix : fixHyphens (frag ++ '-' :: ws ++ [b]) = frag ++ [b] :=
    fixHyphensGo_rejoin frag _ ws b hfrag hall hws hsp hb (le_refl _)
  rw [hfix]
  have hnospace : ∀ c ∈ frag ++ [b], isSpaceCh c = false := by
    intro c hc
    simp only [List.mem_append, List.mem_singleton] at hc
    rcases hc with hc | hc
    · exact alpha_not_space c (hall c hc)
    · subst hc; exact alpha_not_space c hb
  rw [collapseGo_no_space _ hnospace, pyStrip_no_space _ hnospace]


/-- C5 witness: the amended theorem applied at a concrete hyphen-free,
digit-free string. -/
theorem C5_clean_text_idempotent_amended_witness :
    clean_text (clean_text ("  hello   world\nagain ").toList)
      = clean_text ("  hello   world\nagain ").toList :=
  C5_clean_text_idempotent_amended ("  hello   world\nagain ").toList
    (by decide) (by decide)

/-- C6 counterexample: the claim says a pre-hyphen fragment shorter than 4
characters keeps its hyphen; the code rejoins `co-\nop` into `coop`. -/
theorem C6_short_fragment_rejoined :
    clean_text ("co-\nop").toList = ("coop").toList
    ∧ '-' ∉ clean_text ("co-\nop").toList := by
  refine ⟨by decide, by decide⟩

/-- C6 witness: the amended theorem applied at the two-letter fragment
`re-` broken across a line. -/
theorem C6_hyphen_rejoin_any_fragment_witness :
    clean_text ("re-\nj").toList = ("rej").toList := by
  have h := C6_hyphen_rejoin_any_fragment ("re").toList ['\n'] 'j'
    (by decide) (by decide) (by decide) (by decide) (by decide)
  rw [show ("re-\nj").toList = ("re").toList ++ '-' :: ['\n'] ++ ['j'] from rfl, h]
  decide

theorem matchCI_suffix :
    ∀ (pat l r : List Char), matchCI pat l = some r → r <:+ l := by
  intro pat
  induction pat with
  | nil =>
    intro l r h
    cases h
    exact List.suffix_rfl
  | cons p ps ih =>
    intro l r h
    cases l with
    | nil => cases h
    | cons c cs =>
      unfold matchCI at h
      split_ifs at h
      exact (ih cs r h).trans (List.suffix_cons _ _)

theorem lookNW_of_endMarkersAt (prev : Option Char) (l : List Char)
    (h : endMarkersAt prev l = true) : lookNW l = true := by
  unfold endMarkersAt at h
  unfold lookNW
  simp only [Bool.and_eq_true] at h
  simp [h.2]

theorem lookNW_of_tripleBreak (l : List Char) (h : tripleBreak l = true) :
    lookNW l = true := by
  unfold lookNW
  simp [h]

theorem findBoundary_none (text : List Char)
    (H : ∀ l', l' <:+ text → lookNW l' = false) :
    ∀ (l : List Char) (b : Bool) (prev : Option Char), l <:+ text →
      findBoundary b prev l = none := by
  intro l
  induction l with
  | nil =>
    intro b prev hsuf
    unfold findBoundary
    rw [if_neg]
    intro hcond
    simp only [Bool.or_eq_true] at hcond
    rcases hcond with hc | hc
    · exact absurd (lookNW_of_endMarkersAt prev [] hc) (by simp [H [] hsuf])
    · simp only [Bool.and_eq_true] at hc
      exact absurd (lookNW_of_tripleBreak [] hc.2) (by simp [H [] hsuf])
  | cons c rest ih =>
    intro b prev hsuf
    unfold findBoundary
    rw [if_neg]
    · rw [ih b (some c) ((List.suffix_cons c rest).trans hsuf)]
      rfl
    · intro hcond
      simp only [Bool.or_eq_true] at hcond
      rcases hcond with hc | hc
      · exact absurd (lookNW_of_endMarkersAt prev (c :: rest) hc)
          (by simp [H (c :: rest) hsuf])
      · simp only [Bool.and_eq_true] at hc
        exact absurd (lookNW_of_tripleBreak (c :: rest) hc.2)
          (by simp [H (c :: rest) hsuf])


theorem trip_of_countNl :
    ∀ l4 : List Char, 3 ≤ countNl (l4.takeWhile isSpaceCh) →
      ∃ l', l' <:+ l4 ∧ tripleBreak l' = true := by
  intro l4
  induction l4 with
  | nil => intro h; simp [countNl, List.takeWhile] at h
  | cons c rest ih =>
    intro h
    by_cases hc : isSpaceCh c = true
    · rw [List.takeWhile_cons_of_pos hc] at h
      by_cases hnl : c = '\n'
      · subst hnl
        refine ⟨'\n' :: rest, List.suffix_rfl, ?_⟩
        unfold tripleBreak
        simp only [decide_eq_true_eq]
        unfold countNl at h ⊢
        simp only [List.filter_cons, beq_self_eq_true, if_true, List.length_cons] at h
        omega
      · have hcount : 3 ≤ countNl (rest.takeWhile isSpaceCh) := by
          unfold countNl at h ⊢
          simp only [List.filter_cons] at h
          have : (c == '\n') = false := by simp [hnl]
          rw [this] at h
          exact h
        obtain ⟨l', hsuf, htrip⟩ := ih hcount
        exact ⟨l', hsuf.trans (List.suffix_cons _ _), htrip⟩
    · rw [List.takeWhile_cons_of_neg (by simpa using hc)] at h
      simp [countNl] at h


theorem p1CandGo_none (text : List Char)
    (H : ∀ l', l' <:+ text → lookNW l' = false) :
    ∀ (revRun acc : List Char), revRun.reverse ++ acc <:+ text →
      p1CandGo revRun acc = none := by
  intro revRun
  induction revRun with
  | nil => intro acc _; rfl
  | cons c revRest ih =>
    intro acc hsuf
    have hrearr : revRest.reverse ++ (c :: acc) = (c :: revRest).reverse ++ acc := by
      simp
    have hacc : acc <:+ text :=
      (List.suffix_append _ acc).trans hsuf
    unfold p1CandGo
    rw [findBoundary_none text H acc true (some '\n') hacc]
    have hnext : p1CandGo revRest (c :: acc) = none := by
      apply ih
      rw [hrearr]
      exact hsuf
    by_cases hc : c = '\n'
    · subst hc
      simp [hnext]
    · simp [hc, hnext]

theorem p1Try_none (text : List Char)
    (H : ∀ l' r', l' <:+ text → matchCI ("abstract").toList l' = some r' →
      ∀ l'', l'' <:+ r' → lookNW l'' = false) :
    ∀ l : List Char, l <:+ text → p1Try l = none := by
  intro l hsuf
  unfold p1Try
  cases hm : matchCI ("abstract").toList (l.dropWhile isSpaceCh) with
  | none => rfl
  | some l2 =>
    have Hl2 : ∀ l'', l'' <:+ l2 → lookNW l'' = false :=
      H (l.dropWhile isSpaceCh) l2 ((List.dropWhile_suffix _).trans hsuf) hm
    apply p1CandGo_none l2 Hl2
    rw [List.reverse_reverse, List.takeWhile_append_dropWhile]

theorem p1SearchGo_none (text : List Char)
    (H : ∀ l' r', l' <:+ text → matchCI ("abstract").toList l' = some r' →
      ∀ l'', l'' <:+ r' → lookNW l'' = false) :
    ∀ (l : List Char) (atStart : Bool), l <:+ text →
      p1SearchGo atStart l = none := by
  intro l
  induction l with
  | nil => intro atStart _; rfl
  | cons c rest ih =>
    intro atStart hsuf
    unfold p1SearchGo
    rw [show (if atStart || c = '\n' then p1Try (c :: rest) else none)
        = none from ?_]
    · exact ih false ((List.suffix_cons c rest).trans hsuf)
    · by_cases hc : atStart || decide (c = '\n') = true
      · rw [if_pos (by simpa using hc)]
        exact p1Try_none text H _ hsuf
      · rw [if_neg (by simpa using hc)]


theorem p2Try_none (text : List Char)
    (H : ∀ l' r', l' <:+ text → matchCI ("abstract").toList l' = some r' →
      ∀ l'', l'' <:+ r' → lookNW l'' = false) :
    ∀ (l : List Char) (prev : Option Char), l <:+ text → p2Try prev l = none := by
  intro l prev hsuf
  unfold p2Try
  by_cases hp : prevNonWord prev = true
  · rw [if_pos hp]
    cases hm : matchCI ("abstract").toList l with
    | none => rfl
    | some l2 =>
      have Hl2 : ∀ l'', l'' <:+ l2 → lookNW l'' = false := H l l2 hsuf hm
      simp only [p2Abs]
      cases hd : l2.dropWhile isSpaceCh with
      | nil => rfl
      | cons p2c l4 =>
        have hl4 : l4 <:+ l2 := by
          have hc : p2c :: l4 <:+ l2 := by
            rw [← hd]
            exact List.dropWhile_suffix _
          exact (List.suffix_cons p2c l4).trans hc
        simp only [p2Punct]
        by_cases hpunct : isAbstractPunct p2c = true
        · rw [if_pos hpunct]
          unfold p2Run
          rw [findBoundary_none l2 Hl2 (l4.dropWhile isSpaceCh) true _
            ((List.dropWhile_suffix _).trans hl4)]
          have hcnt : ¬(3 ≤ countNl (l4.takeWhile isSpaceCh)) := by
            intro hge
            obtain ⟨l', hls, htrip⟩ := trip_of_countNl l4 hge
            have hlk := Hl2 l' (hls.trans hl4)
            rw [lookNW_of_tripleBreak l' htrip] at hlk
            cases hlk
          simp [hcnt]
        · rw [if_neg hpunct]
  · rw [if_neg hp]

theorem p2SearchGo_none (text : List Char)
    (H : ∀ l' r', l' <:+ text → matchCI ("abstract").toList l' = some r' →
      ∀ l'', l'' <:+ r' → lookNW l'' = false) :
    ∀ (l : List Char) (prev : Option Char), l <:+ text →
      p2SearchGo prev l = none := by
  intro l
  induction l with
  | nil => intro prev _; rfl
  | cons c rest ih =>
    intro prev hsuf
    unfold p2SearchGo
    rw [p2Try_none text H _ prev hsuf]
    exact ih (some c) ((List.suffix_cons c rest).trans hsuf)

theorem p3Try_none (text : List Char)
    (H : ∀ l' r', l' <:+ text → matchCI ("abstract").toList l' = some r' →
      ∀ l'', l'' <:+ r' → lookNW l'' = false) :
    ∀ (l : List Char) (prev : Option Char), l <:+ text → p3Try prev l = none := by
  intro l prev hsuf
  unfold p3Try
  by_cases hp : prevNonWord prev = true
  · rw [if_pos hp]
    cases hm : matchCI ("abstract").toList l with
    | none => rfl
    | some l2 =>
      have Hl2 : ∀ l'', l'' <:+ l2 → lookNW l'' = false := H l l2 hsuf hm
      simp only [p3Abs]
      by_cases hb : boundaryAfterWord l2 = true
      · rw [if_pos hb]
        unfold p3Run
        rw [findBoundary_none l2 Hl2 (l2.dropWhile isSpaceCh) false _
          (List.dropWhile_suffix _)]
      · rw [if_neg hb]
  · rw [if_neg hp]

theorem p3SearchGo_none (text : List Char)
    (H : ∀ l' r', l' <:+ text → matchCI ("abstract").toList l' = some r' →
      ∀ l'', l'' <:+ r' → lookNW l'' = false) :
    ∀ (l : List Char) (prev : Option Char), l <:+ text →
      p3SearchGo prev l = none := by
  intro l
  induction l with
  | nil => intro prev _; rfl
  | cons c rest ih =>
    intro prev hsuf
    unfold p3SearchGo
    rw [p3Try_none text H _ prev hsuf]
    exact ih (some c) ((List.suffix_cons c rest).trans hsuf)

theorem hasBoundary_suffix_false :
    ∀ (text l' : List Char), hasBoundary text = false → l' <:+ text →
      lookNW l' = false := by
  intro text
  induction text with
  | nil =>
    intro l' h hsuf
    rw [List.suffix_nil.1 hsuf]
    exact h
  | cons c rest ih =>
    intro l' h hsuf
    unfold hasBoundary at h
    simp only [Bool.or_eq_false_iff] at h
    rcases List.suffix_cons_iff.1 hsuf with rfl | hsuf2
    · exact h.1
    · exact ih l' h.2 hsuf2

theorem matchCI_eq_drop :
    ∀ (pat l r : List Char), matchCI pat l = some r → r = l.drop pat.length := by
  intro pat
  induction pat with
  | nil =>
    intro l r h
    cases h
    rfl
  | cons p ps ih =>
    intro l r h
    cases l with
    | nil => cases h
    | cons c cs =>
      unfold matchCI at h
      split_ifs at h
      exact ih cs r h

theorem suffix_drop_mono :
    ∀ {l₁ l₂ : List Char}, l₁ <:+ l₂ → ∀ n : Nat, l₁.drop n <:+ l₂.drop n := by
  intro l₁ l₂ h n
  obtain ⟨t, rfl⟩ := h
  rw [List.drop_append_eq_append_drop]
  refine List.IsSuffix.trans ?_ (List.suffix_append _ _)
  have he : l₁.drop n = (l₁.drop (n - t.length)).drop (n - (n - t.length)) := by
    rw [List.drop_drop]
    congr 1
    omega
  rw [he]
  exact List.drop_suffix _ _

theorem kwRest_first :
    ∀ (text rest : List Char), kwRest text = some rest →
      ∀ (l' r' : List Char), l' <:+ text →
        matchCI ("abstract").toList l' = some r' → r' <:+ rest := by
  intro text
  induction text with
  | nil =>
    intro rest h
    cases h
  | cons c t ih =>
    intro rest h l' r' hsuf hm
    unfold kwRest at h
    cases hmc : matchCI ("abstract").toList (c :: t) with
    | some r0 =>
      simp only [hmc, Option.some.injEq] at h
      subst h
      have h1 := matchCI_eq_drop _ _ _ hm
      have h2 := matchCI_eq_drop _ _ _ hmc
      rw [h1, h2]
      exact suffix_drop_mono hsuf _
    | none =>
      simp only [hmc] at h
      rcases List.suffix_cons_iff.1 hsuf with rfl | hsuf2
      · rw [hm] at hmc
        cases hmc
      · exact ih rest h l' r' hsuf2 hm

theorem prevAt_nil (prev : Option Char) : prevAt prev [] = prev := rfl

theorem prevAt_cons (prev : Option Char) (c : Char) (g : List Char) :
    prevAt prev (c :: g) = prevAt (some c) g := by
  cases g with
  | nil => rfl
  | cons d g2 =>
    cases hgl : (d :: g2).getLast? with
    | some e => simp only [prevAt, List.getLast?_cons_cons, hgl]
    | none =>
      rw [List.getLast?_eq_getLast _ (by simp)] at hgl
      cases hgl

theorem findBoundary_some_spec :
    ∀ (l : List Char) (u : Bool) (prev : Option Char) (g r : List Char),
      findBoundary u prev l = some (g, r) →
      g ++ r = l ∧ lookAhead u (prevAt prev g) r = true ∧
        ∀ g' r', g' ++ r' = l → g'.length < g.length →
          lookAhead u (prevAt prev g') r' = false := by
  intro l
  induction l with
  | nil =>
    intro u prev g r h
    unfold findBoundary at h
    split_ifs at h with hc
    · simp only [Option.some.injEq, Prod.mk.injEq] at h
      obtain ⟨hg, hr⟩ := h
      subst hg
      subst hr
      refine ⟨rfl, by simpa [lookAhead, prevAt] using hc, ?_⟩
      intro g' r' _ hlt
      simp at hlt
  | cons c rest ih =>
    intro u prev g r h
    unfold findBoundary at h
    split_ifs at h with hc
    · simp only [Option.some.injEq, Prod.mk.injEq] at h
      obtain ⟨hg, hr⟩ := h
      subst hg
      subst hr
      refine ⟨rfl, by simpa [lookAhead, prevAt] using hc, ?_⟩
      intro g' r' _ hlt
      simp at hlt
    · rw [Option.map_eq_some'] at h
      obtain ⟨⟨g₁, r₁⟩, hfb, hmap⟩ := h
      simp only [Prod.mk.injEq] at hmap
      obtain ⟨hg, hr⟩ := hmap
      subst hg
      subst hr
      obtain ⟨heq, hla, hfirst⟩ := ih u (some c) g₁ r₁ hfb
      refine ⟨by rw [List.cons_append, heq], ?_, ?_⟩
      · rw [prevAt_cons]
        exact hla
      · intro g' r' hsplit hlt
        cases g' with
        | nil =>
          simp only [List.nil_append] at hsplit
          subst hsplit
          simp only [lookAhead, prevAt_nil]
          exact Bool.eq_false_iff.mpr hc
        | cons c2 g2 =>
          simp only [List.cons_append, List.cons.injEq] at hsplit
          obtain ⟨rfl, hsp2⟩ := hsplit
          rw [prevAt_cons]
          refine hfirst g2 r' hsp2 ?_
          simp only [List.length_cons] at hlt
          omega

theorem p1CandGo_some :
    ∀ (revRun acc g : List Char), p1CandGo revRun acc = some g →
      ∃ acc' r, acc' <:+ revRun.reverse ++ acc ∧
        findBoundary true (some '\n') acc' = some (g, r) := by
  intro revRun
  induction revRun with
  | nil =>
    intro acc g h
    cases h
  | cons c revRest ih =>
    intro acc g h
    unfold p1CandGo at h
    by_cases hc : c = '\n'
    · rw [if_pos hc] at h
      cases hfb : findBoundary true (some '\n') acc with
      | some gr =>
        obtain ⟨g₁, r₁⟩ := gr
        simp only [hfb] at h
        injection h with h1
        subst h1
        exact ⟨acc, r₁, List.suffix_append _ _, hfb⟩
      | none =>
        simp only [hfb] at h
        obtain ⟨acc', r, hsuf, hfb2⟩ := ih _ _ h
        refine ⟨acc', r, ?_, hfb2⟩
        rw [List.reverse_cons, List.append_assoc, List.singleton_append]
        exact hsuf
    · rw [if_neg hc] at h
      obtain ⟨acc', r, hsuf, hfb2⟩ := ih _ _ h
      refine ⟨acc', r, ?_, hfb2⟩
      rw [List.reverse_cons, List.append_assoc, List.singleton_append]
      exact hsuf

theorem p1Try_some (l g : List Char) (h : p1Try l = some g) :
    ∃ l2 acc r, matchCI ("abstract").toList (l.dropWhile isSpaceCh) = some l2 ∧
      acc <:+ l2 ∧ findBoundary true (some '\n') acc = some (g, r) := by
  unfold p1Try at h
  cases hm : matchCI ("abstract").toList (l.dropWhile isSpaceCh) with
  | none =>
    rw [hm] at h
    cases h
  | some l2 =>
    simp only [hm] at h
    obtain ⟨acc, r, hsuf, hfb⟩ := p1CandGo_some _ _ _ h
    refine ⟨l2, acc, r, rfl, ?_, hfb⟩
    rwa [List.reverse_reverse, List.takeWhile_append_dropWhile] at hsuf

theorem p1SearchGo_some :
    ∀ (l : List Char) (atStart : Bool) (g : List Char),
      p1SearchGo atStart l = some g → ∃ l', l' <:+ l ∧ p1Try l' = some g := by
  intro l
  induction l with
  | nil =>
    intro atStart g h
    cases h
  | cons c rest ih =>
    intro atStart g h
    unfold p1SearchGo at h
    cases ht : (if atStart || c = '\n' then p1Try (c :: rest) else none) with
    | some g0 =>
      simp only [ht] at h
      injection h with h1
      subst h1
      split_ifs at ht with hif
      exact ⟨c :: rest, List.suffix_rfl, ht⟩
    | none =>
      simp only [ht] at h
      obtain ⟨l', hsuf, hp⟩ := ih false g h
      exact ⟨l', hsuf.trans (List.suffix_cons c rest), hp⟩

theorem p2Try_some (prev : Option Char) (l g : List Char)
    (h : p2Try prev l = some g) :
    ∃ l2, matchCI ("abstract").toList l = some l2 ∧
      ((∃ pv acc r, acc <:+ l2 ∧ findBoundary true pv acc = some (g, r)) ∨
        g = []) := by
  unfold p2Try at h
  split_ifs at h with hp
  · cases hm : matchCI ("abstract").toList l with
    | none =>
      rw [hm] at h
      cases h
    | some l2 =>
      rw [hm] at h
      simp only [p2Abs] at h
      refine ⟨l2, rfl, ?_⟩
      cases hd : l2.dropWhile isSpaceCh with
      | nil =>
        rw [hd] at h
        cases h
      | cons p2c l4 =>
        rw [hd] at h
        simp only [p2Punct] at h
        split_ifs at h with hpunct
        · unfold p2Run at h
          have hl4 : l4 <:+ l2 := by
            have hc : p2c :: l4 <:+ l2 := by
              rw [← hd]
              exact List.dropWhile_suffix _
            exact (List.suffix_cons p2c l4).trans hc
          cases hfb : findBoundary true (some ((l4.takeWhile isSpaceCh).getLastD p2c))
              (l4.dropWhile isSpaceCh) with
          | some gr =>
            obtain ⟨g₁, r₁⟩ := gr
            simp only [hfb] at h
            injection h with h1
            subst h1
            exact Or.inl ⟨_, l4.dropWhile isSpaceCh, r₁,
              (List.dropWhile_suffix _).trans hl4, hfb⟩
          | none =>
            simp only [hfb] at h
            split_ifs at h with hcnt
            injection h with h1
            exact Or.inr h1.symm

theorem p2SearchGo_some :
    ∀ (l : List Char) (prev : Option Char) (g : List Char),
      p2SearchGo prev l = some g →
      ∃ l' pv, l' <:+ l ∧ p2Try pv l' = some g := by
  intro l
  induction l with
  | nil =>
    intro prev g h
    cases h
  | cons c rest ih =>
    intro prev g h
    unfold p2SearchGo at h
    cases ht : p2Try prev (c :: rest) with
    | some g0 =>
      simp only [ht] at h
      injection h with h1
      subst h1
      exact ⟨c :: rest, prev, List.suffix_rfl, ht⟩
    | none =>
      simp only [ht] at h
      obtain ⟨l', pv, hsuf, hp⟩ := ih (some c) g h
      exact ⟨l', pv, hsuf.trans (List.suffix_cons c rest), hp⟩

theorem p3Try_some (prev : Option Char) (l g : List Char)
    (h : p3Try prev l = some g) :
    ∃ l2, matchCI ("abstract").toList l = some l2 ∧
      ∃ pv acc r, acc <:+ l2 ∧ findBoundary false pv acc = some (g, r) := by
  unfold p3Try at h
  split_ifs at h with hp
  · cases hm : matchCI ("abstract").toList l with
    | none =>
      rw [hm] at h
      cases h
    | some l2 =>
      rw [hm] at h
      simp only [p3Abs] at h
      split_ifs at h with hb
      · unfold p3Run at h
        cases hfb : findBoundary false (some ((l2.takeWhile isSpaceCh).getLastD 't'))
            (l2.dropWhile isSpaceCh) with
        | some gr =>
          obtain ⟨g₁, r₁⟩ := gr
          simp only [hfb] at h
          injection h with h1
          subst h1
          exact ⟨l2, rfl, _, l2.dropWhile isSpaceCh, r₁, List.dropWhile_suffix _, hfb⟩
        | none =>
          simp only [hfb] at h
          cases h

theorem p3SearchGo_some :
    ∀ (l : List Char) (prev : Option Char) (g : List Char),
      p3SearchGo prev l = some g →
      ∃ l' pv, l' <:+ l ∧ p3Try pv l' = some g := by
  intro l
  induction l with
  | nil =>
    intro prev g h
    cases h
  | cons c rest ih =>
    intro prev g h
    unfold p3SearchGo at h
    cases ht : p3Try prev (c :: rest) with
    | some g0 =>
      simp only [ht] at h
      injection h with h1
      subst h1
      exact ⟨c :: rest, prev, List.suffix_rfl, ht⟩
    | none =>
      simp only [ht] at h
      obtain ⟨l', pv, hsuf, hp⟩ := ih (some c) g h
      exact ⟨l', pv, hsuf.trans (List.suffix_cons c rest), hp⟩

theorem tryAccept_some (o : Option (List Char)) (a : List Char)
    (h : tryAccept o = some a) :
    ∃ g, o = some g ∧ a = postCandidate g ∧ 80 < (postCandidate g).length := by
  cases o with
  | none => cases h
  | some g =>
    simp only [tryAccept] at h
    split_ifs at h with hlen
    injection h with h1
    exact ⟨g, rfl, h1.symm, hlen⟩

/-- C8 amended: for a text in which the keyword is found, a successful
extraction captures a slice that starts after an occurrence of the keyword
(plus the whitespace and punctuation the matching pattern consumes) and ends
exactly at the first position from the slice's start onward where the
end-of-abstract look-ahead — a recognized section-heading word or
numbered/roman heading, or (for the first two patterns) a triple
line-break — holds; the returned abstract is that slice cleaned.  And when no
such boundary occurs after the first occurrence of the keyword, no pattern
produces a candidate and the extractor returns the empty string: there is no
bounded hard-cutoff slice. -/
theorem C8_slice_ends_at_first_boundary (text : List Char) :
    (∀ a, extract_abstract_from_text text = a → a ≠ [] →
      ∃ (kw l2 : List Char) (u : Bool) (pv : Option Char) (g r : List Char),
        kw <:+ text ∧
        matchCI ("abstract").toList kw = some l2 ∧
        g ++ r <:+ l2 ∧
        a = postCandidate g ∧
        lookAhead u (prevAt pv g) r = true ∧
        (∀ g' r', g' ++ r' = g ++ r → g'.length < g.length →
          lookAhead u (prevAt pv g') r' = false)) ∧
    (∀ rest, kwRest text = some rest → hasBoundary rest = false →
      extract_abstract_from_text text = []) := by
  constructor
  · intro a ha hne
    unfold extract_abstract_from_text at ha
    cases h1 : tryAccept (p1SearchGo true text) with
    | some a1 =>
      simp only [h1] at ha
      obtain ⟨g, hsg, hpc, hlen⟩ := tryAccept_some _ _ h1
      obtain ⟨l', hsuf, hp1⟩ := p1SearchGo_some text true g hsg
      obtain ⟨l2, acc, r, hm, haccsuf, hfb⟩ := p1Try_some l' g hp1
      obtain ⟨heq, hla, hfirst⟩ := findBoundary_some_spec acc true (some '\n') g r hfb
      refine ⟨l'.dropWhile isSpaceCh, l2, true, some '\n', g, r,
        (List.dropWhile_suffix _).trans hsuf, hm, ?_, ha.symm.trans hpc, hla, ?_⟩
      · rw [heq]
        exact haccsuf
      · intro g' r' hsp hlt
        exact hfirst g' r' (hsp.trans heq) hlt
    | none =>
      simp only [h1] at ha
      cases h2 : tryAccept (p2SearchGo none text) with
      | some a2 =>
        simp only [h2] at ha
        obtain ⟨g, hsg, hpc, hlen⟩ := tryAccept_some _ _ h2
        obtain ⟨l', pv0, hsuf, hp2⟩ := p2SearchGo_some text none g hsg
        obtain ⟨l2, hm, hcase⟩ := p2Try_some pv0 l' g hp2
        rcases hcase with ⟨pv, acc, r, haccsuf, hfb⟩ | rfl
        · obtain ⟨heq, hla, hfirst⟩ := findBoundary_some_spec acc true pv g r hfb
          refine ⟨l', l2, true, pv, g, r, hsuf, hm, ?_, ha.symm.trans hpc, hla, ?_⟩
          · rw [heq]
            exact haccsuf
          · intro g' r' hsp hlt
            exact hfirst g' r' (hsp.trans heq) hlt
        · have h0 : postCandidate ([] : List Char) = [] := by decide
          rw [h0] at hlen
          simp at hlen
      | none =>
        simp only [h2] at ha
        cases h3 : tryAccept (p3SearchGo none text) with
        | some a3 =>
          simp only [h3] at ha
          obtain ⟨g, hsg, hpc, hlen⟩ := tryAccept_some _ _ h3
          obtain ⟨l', pv0, hsuf, hp3⟩ := p3SearchGo_some text none g hsg
          obtain ⟨l2, hm, pv, acc, r, haccsuf, hfb⟩ := p3Try_some pv0 l' g hp3
          obtain ⟨heq, hla, hfirst⟩ := findBoundary_some_spec acc false pv g r hfb
          refine ⟨l', l2, false, pv, g, r, hsuf, hm, ?_, ha.symm.trans hpc, hla, ?_⟩
          · rw [heq]
            exact haccsuf
          · intro g' r' hsp hlt
            exact hfirst g' r' (hsp.trans heq) hlt
        | none =>
          simp only [h3] at ha
          exact absurd ha.symm hne
  · intro rest hkw hb
    have H : ∀ l' r', l' <:+ text → matchCI ("abstract").toList l' = some r' →
        ∀ l'', l'' <:+ r' → lookNW l'' = false := by
      intro l' r' hsuf hm l'' hs2
      exact hasBoundary_suffix_false rest l'' hb
        (hs2.trans (kwRest_first text rest hkw l' r' hsuf hm))
    unfold extract_abstract_from_text
    rw [p1SearchGo_none text H text true List.suffix_rfl,
      p2SearchGo_none text H text none List.suffix_rfl,
      p3SearchGo_none text H text none List.suffix_rfl]
    rfl

set_option maxRecDepth 10000 in
/-- C8 counterexample: a text with `Abstract:` followed by far more than 80
characters of content but no recognized heading, no numbered or roman
heading and no triple line-break yields the empty string — the claimed
hard cutoff that "still yields a candidate" does not exist. -/
theorem C8_no_hard_cutoff_counterexample :
    extract_abstract_from_text c8Text = [] ∧ 100 ≤ c8Text.length := by
  refine ⟨by decide, by decide⟩

set_option maxRecDepth 100000 in
/-- C8 witness: the amended theorem applied at two concrete texts — one whose
abstract block is closed by an `Introduction` heading, so a slice is captured
and ends at that first boundary, and one with a `Keywords` heading before the
keyword but no boundary after it, so the extractor returns the empty
string. -/
theorem C8_slice_ends_at_first_boundary_witness :
    (∃ (kw l2 : List Char) (u : Bool) (pv : Option Char) (g r : List Char),
      kw <:+ c8SuccessText ∧
      matchCI ("abstract").toList kw = some l2 ∧
      g ++ r <:+ l2 ∧
      extract_abstract_from_text c8SuccessText = postCandidate g ∧
      lookAhead u (prevAt pv g) r = true ∧
      (∀ g' r', g' ++ r' = g ++ r → g'.length < g.length →
        lookAhead u (prevAt pv g') r' = false)) ∧
    extract_abstract_from_text c8PreMarkerText = [] :=
  ⟨(C8_slice_ends_at_first_boundary c8SuccessText).1
      (extract_abstract_from_text c8SuccessText) rfl (by decide),
    (C8_slice_ends_at_first_boundary c8PreMarkerText).2
      (c8Text.drop 8) (by decide) (by decide)⟩

/-- C1: for every persisted record matched by `sourceRef` (`github_pdf`),
the merge step rewrites only `status` and `sort_order` — and only when the
freshly parsed values differ — while `title`, `abstract` and all other
fields stay byte-identical; unmatched records are untouched. -/
theorem C1_reconcile_frame :
    ∀ (parsed : Parsed) (relative : List Char) (pubs : List Pub),
      (reconcile parsed relative pubs).map frameFields = pubs.map frameFields
      ∧ ∀ p : Pub,
          frameFields (refreshPub parsed p) = frameFields p
          ∧ (refreshPub parsed p).status = parsed.status
          ∧ (refreshPub parsed p).sort_order = parsed.sort_order
          ∧ (p.status = parsed.status → p.sort_order = parsed.sort_order →
              refreshPub parsed p = p)
          ∧ (p.github_pdf ≠ relative →
              (reconcile parsed relative [p]) = [p]) := by
  intro parsed relative pubs
  have hframe : ∀ p : Pub, frameFields (refreshPub parsed p) = frameFields p := by
    intro p
    unfold refreshPub frameFields
    by_cases h1 : p.status ≠ parsed.status <;>
      by_cases h2 : p.sort_order ≠ parsed.sort_order <;>
        simp [h1, h2]
  refine ⟨?_, ?_⟩
  · unfold reconcile
    rw [List.map_map]
    refine List.map_congr_left ?_
    intro p _
    by_cases h : p.github_pdf = relative <;> simp [h, hframe p]
  · intro p
    refine ⟨hframe p, ?_, ?_, ?_, ?_⟩
    · unfold refreshPub
      by_cases h1 : p.status ≠ parsed.status <;>
        by_cases h2 : p.sort_order ≠ parsed.sort_order <;>
          simp_all
    · unfold refreshPub
      by_cases h1 : p.status ≠ parsed.status <;>
        by_cases h2 : p.sort_order ≠ parsed.sort_order <;>
          simp_all
    · intro h1 h2
      unfold refreshPub
      simp [h1, h2]
    · intro h
      unfold reconcile
      simp [h]

/-- C1 witness: the theorem applied at a concrete parsed result and a
concrete stored record. -/
theorem C1_reconcile_frame_witness :
    (reconcile ⟨"p".toList, "Under review".toList, 1⟩ ("papers/x.pdf").toList
        [⟨"T".toList, "A".toList, "c".toList, ("papers/x.pdf").toList, 2025,
          "Working paper".toList, 999, some "abs".toList⟩]).map frameFields
      = [frameFields ⟨"T".toList, "A".toList, "c".toList, ("papers/x.pdf").toList, 2025,
          "Working paper".toList, 999, some "abs".toList⟩]
    ∧ (refreshPub ⟨"p".toList, "Under review".toList, 1⟩
        ⟨"T".toList, "A".toList, "c".toList, ("papers/x.pdf").toList, 2025,
          "Working paper".toList, 999, some "abs".toList⟩).status
        = "Under review".toList :=
  ⟨(C1_reconcile_frame ⟨"p".toList, "Under review".toList, 1⟩ ("papers/x.pdf").toList
      [⟨"T".toList, "A".toList, "c".toList, ("papers/x.pdf").toList, 2025,
        "Working paper".toList, 999, some "abs".toList⟩]).1,
   ((C1_reconcile_frame ⟨"p".toList, "Under review".toList, 1⟩ ("papers/x.pdf").toList
      [⟨"T".toList, "A".toList, "c".toList, ("papers/x.pdf").toList, 2025,
        "Working paper".toList, 999, some "abs".toList⟩]).2 _).2.1⟩

/-- C3 counterexample: the claim says an unknown abbreviation is appended
raw; on `RR-xyz` the code appends the upper-cased abbreviation `XYZ`, not
the raw `xyz`. -/
theorem C3_raw_abbrev_counterexample :
    parse_status_code ("RR-xyz").toList ≠ ("Revise & Resubmit, xyz").toList
    ∧ parse_status_code ("RR-xyz").toList = ("Revise & Resubmit, XYZ").toList := by
  constructor <;> decide

/-- C3 amended: `UR`/`WP` decode (case-insensitively) to "Under review" /
"Working paper"; a code whose upper-casing begins with `RR` and contains a
dash decodes to "Revise & Resubmit, " followed by the table entry for the
upper-cased abbreviation, or by the upper-cased abbreviation itself when it
is unknown; `RR` without a dash decodes to "Revise & Resubmit"; any other
code is returned verbatim. -/
theorem C3_status_code_decoding :
    ∀ s : List Char,
      (s.map toUpperCh = "UR".toList → parse_status_code s = "Under review".toList)
      ∧ (s.map toUpperCh = "WP".toList → parse_status_code s = "Working paper".toList)
      ∧ ((s.map toUpperCh).take 2 = "RR".toList →
          (∀ pre ab, splitDash1 s = (pre, some ab) →
            (∀ j, lookupAbbrev (ab.map toUpperCh) = some j →
                parse_status_code s = "Revise & Resubmit, ".toList ++ j)
            ∧ (lookupAbbrev (ab.map toUpperCh) = none →
                parse_status_code s = "Revise & Resubmit, ".toList ++ ab.map toUpperCh))
          ∧ (splitDash1 s = (s, none) → parse_status_code s = "Revise & Resubmit".toList))
      ∧ (s.map toUpperCh ≠ "UR".toList → s.map toUpperCh ≠ "WP".toList →
          (s.map toUpperCh).take 2 ≠ "RR".toList → parse_status_code s = s) := by
  intro s
  refine ⟨?_, ?_, ?_, ?_⟩
  · intro h
    unfold parse_status_code
    rw [h]
    simp
  · intro h
    unfold parse_status_code
    rw [h]
    simp
  · intro h
    have hUR : s.map toUpperCh ≠ "UR".toList := by
      intro he; rw [he] at h; exact absurd h (by decide)
    have hWP : s.map toUpperCh ≠ "WP".toList := by
      intro he; rw [he] at h; exact absurd h (by decide)
    constructor
    · intro pre ab hsplit
      constructor
      · intro j hj
        unfold parse_status_code
        rw [if_neg hUR, if_neg hWP, if_pos h, hsplit]
        simp [hj]
      · intro hj
        unfold parse_status_code
        rw [if_neg hUR, if_neg hWP, if_pos h, hsplit]
        simp [hj]
    · intro hsplit
      unfold parse_status_code
      rw [if_neg hUR, if_neg hWP, if_pos h, hsplit]
  · intro h1 h2 h3
    unfold parse_status_code
    rw [if_neg h1, if_neg h2, if_neg h3]

/-- C3 witness: the amended theorem applied at the concrete code `rr-jop`
(case-insensitive known abbreviation). -/
theorem C3_status_code_decoding_witness :
    parse_status_code ("rr-jop").toList
      = ("Revise & Resubmit, Journal of Politics").toList :=
  ((((C3_status_code_decoding ("rr-jop").toList).2.2.1 (by decide)).1
      "rr".toList "jop".toList (by decide)).1
    ("Journal of Politics").toList (by decide))

/-- C7 counterexample: two spans of the page's unique maximal font size,
700 points apart vertically, are both joined into the title; the claim's
~60-point vertical window does not exist in the code. -/
theorem C7_no_vertical_window_counterexample :
    extract_title_from_pdf
        [⟨"Amazing".toList, 10, 0⟩, ⟨"Banner".toList, 10, 700⟩]
      = ("Amazing Banner").toList
    ∧ (60 : ℚ) < 700 - 0 := by
  refine ⟨by decide, by norm_num⟩

/-- C7 amended: every span whose font size reaches the title threshold is
retained as a title candidate, regardless of its vertical position. -/
theorem C7_all_large_spans_retained :
    ∀ (ws : List SpanWord) (w : SpanWord), w ∈ ws → titleThreshold ws ≤ w.size →
      w.text ∈ titleCandidates ws := by
  intro ws w hmem hsize
  unfold titleCandidates
  exact List.mem_map_of_mem _ (List.mem_filter.2 ⟨hmem, by simpa using hsize⟩)

/-- C7 witness: the amended theorem applied to a concrete span collection
with a span 700 points below the topmost. -/
theorem C7_all_large_spans_retained_witness :
    ("Banner").toList ∈ titleCandidates
      [⟨"Amazing".toList, 10, 0⟩, ⟨"Banner".toList, 10, 700⟩] :=
  C7_all_large_spans_retained
    [⟨"Amazing".toList, 10, 0⟩, ⟨"Banner".toList, 10, 700⟩]
    ⟨"Banner".toList, 10, 700⟩ (by decide) (by decide)

/-- C9: the abstract extractor returns the empty string or a result of at
least 50 characters (the code's guard is in fact `> 80`, which implies the
claimed bound); it never returns a nonempty result shorter than that. -/
theorem C9_min_length :
    ∀ text : List Char,
      extract_abstract_from_text text = []
      ∨ 50 ≤ (extract_abstract_from_text text).length := by
  have haccept : ∀ g a, tryAccept g = some a → 50 ≤ a.length := by
    intro g a h
    cases g with
    | none => exact absurd h (by simp [tryAccept])
    | some g0 =>
      simp only [tryAccept] at h
      generalize hb : postCandidate g0 = b at h
      split at h
      · cases h; omega
      · exact absurd h (by simp)
  intro text
  unfold extract_abstract_from_text
  cases h1 : tryAccept (p1SearchGo true text) with
  | some a => simp only [h1]; right; exact haccept _ _ h1
  | none =>
    simp only [h1]
    cases h2 : tryAccept (p2SearchGo none text) with
    | some a => simp only [h2]; right; exact haccept _ _ h2
    | none =>
      simp only [h2]
      cases h3 : tryAccept (p3SearchGo none text) with
      | some a => simp only [h3]; right; exact haccept _ _ h3
      | none => simp [h3]

/-- C10: the `abstract` key of a newly created entry is present exactly when
abstract extraction returned a nonempty string; a failed or rejected
extraction leaves the key absent, never stored as an empty string. -/
theorem C10_abstract_key_iff :
    ∀ (filename : List Char) (page1Words : List SpanWord) (pages : List (List Char))
      (category relative : List Char) (md : Metadata),
      extract_metadata filename page1Words pages = some md →
        (((buildEntry category relative md).abstract = none)
            ↔ extract_abstract_from_pdf pages = [])
        ∧ (∀ a, (buildEntry category relative md).abstract = some a → a ≠ [])
        ∧ (extract_abstract_from_pdf pages ≠ [] →
            (buildEntry category relative md).abstract
              = some (extract_abstract_from_pdf pages)) := by
  intro f ws pages cat rel md h
  unfold extract_metadata at h
  cases hp : parse_filename f with
  | none => rw [hp] at h; exact absurd h (by simp)
  | some parsed =>
    rw [hp] at h
    have habs : md.abstract = extract_abstract_from_pdf pages := by
      cases h; rfl
    unfold buildEntry
    rw [habs]
    by_cases he : (extract_abstract_from_pdf pages).isEmpty
    · have he2 : extract_abstract_from_pdf pages = [] := by
        simpa [List.isEmpty_iff] using he
      refine ⟨by simp [he, he2], ?_, ?_⟩
      · intro a ha
        rw [if_pos he] at ha
        exact absurd ha (by simp)
      · intro hne; exact absurd he2 hne
    · have he2 : extract_abstract_from_pdf pages ≠ [] := by
        simpa [List.isEmpty_iff] using he
      refine ⟨by simp [he, he2], ?_, ?_⟩
      · intro a ha
        rw [if_neg he] at ha
        cases ha
        exact he2
      · intro _; rw [if_neg he]

/-- C10 witness: the theorem applied at a concrete file with no pages, whose
entry therefore carries no `abstract` key. -/
theorem C10_abstract_key_iff_witness :
    (buildEntry ("working-papers").toList ("papers/x.pdf").toList
        ⟨"X".toList, [], "Working paper".toList, 999⟩).abstract = none :=
  ((C10_abstract_key_iff ("x.pdf").toList [] [] ("working-papers").toList
      ("papers/x.pdf").toList ⟨"X".toList, [], "Working paper".toList, 999⟩
      (by decide)).1).mpr (by decide)

end PdfMeta
